import Mathlib

/-!
Verification of the OpenPilot sources in this repository against their
natural-language specification.

Two source units are embedded:

* `flight/PiOS/Common/pios_bma180.c` — the BMA180 accelerometer driver.  The
  external SPI and FIFO collaborators (`PIOS_SPI_*`, `fifoBuf_*`) are not part
  of the sources; their observable outcomes are passed as parameters or
  modelled from the spec.
* `include/rtslam/kalmanFilter.hpp` — the indirect EKF core.  Only the
  declarations and their documented formulas are in the sources; the method
  bodies are modelled from the spec (see the `rtslam` namespace below).

All machine integers are modelled as `Nat`/`Int` with explicit wrap-around
where the C types overflow; real arithmetic is modelled exactly over `ℚ`.
-/

namespace Bma180

/-- State of the SPI bus as seen by the BMA180 driver: whether the driver holds
the bus (`PIOS_SPI_ClaimBus` succeeded) and whether the chip-select line is
asserted (`PIOS_BMA180_ENABLE` / `PIOS_BMA180_DISABLE`). -/
structure SpiBus where
  claimed : Bool
  selected : Bool
deriving DecidableEq, Repr

/-- `PIOS_BMA180_ClaimBus` (pios_bma180.c:98): claim the SPI bus and assert chip
select.  `spiClaimOk` models the outcome of the external `PIOS_SPI_ClaimBus`.
Returns 0 on success, -1 if the bus cannot be claimed (bus state untouched). -/
def PIOS_BMA180_ClaimBus (spiClaimOk : Bool) (bus : SpiBus) : Int × SpiBus :=
  if ¬ spiClaimOk then (-1, bus)
  else (0, { claimed := true, selected := true })

/-- `PIOS_BMA180_ReleaseBus` (pios_bma180.c:110): deassert chip select and
release the bus; always returns 0 (the external release result). -/
def PIOS_BMA180_ReleaseBus (bus : SpiBus) : Int × SpiBus :=
  (0, { bus with claimed := false, selected := false })

/-- `PIOS_BMA180_GetReg` (pios_bma180.c:121): read one register.  `spiClaimOk`
models the bus claim, `value` the byte the device answers (a `uint8_t`, hence
the `% 256`).  Returns the register value, or -1 on failure to get the bus. -/
def PIOS_BMA180_GetReg (spiClaimOk : Bool) (value : Nat) : Int :=
  if ¬ spiClaimOk then -1 else ((value % 256 : Nat) : Int)

/-- `PIOS_BMA180_SetReg` (pios_bma180.c:141): write `data` (a `uint8_t`) to a
register.  Result: the C return code together with the byte actually written to
the device — `none` when the bus claim failed and nothing was transferred. -/
def PIOS_BMA180_SetReg (spiClaimOk : Bool) (data : Nat) : Int × Option Nat :=
  if ¬ spiClaimOk then (-1, none) else (0, some (data % 256))

/-- `PIOS_BMA180_EnableEeprom` (pios_bma180.c:155): read `BMA_CTRREG0`, set
bit 4 (`byte |= 0x10`) and write the byte back.  `getClaimOk`/`setClaimOk`
model the bus claims of the embedded `GetReg`/`SetReg` calls and `ctrreg0` the
byte read from the device.  Result: (return code, byte written back, if any). -/
def PIOS_BMA180_EnableEeprom (getClaimOk setClaimOk : Bool) (ctrreg0 : Nat) :
    Int × Option Nat :=
  let byte := PIOS_BMA180_GetReg getClaimOk ctrreg0
  if byte < 0 then (-1, none)
  else
    match PIOS_BMA180_SetReg setClaimOk (byte.toNat ||| 0x10) with
    | (r, w) => if r < 0 then (-1, w) else (0, w)

/-- `PIOS_BMA180_DisableEeprom` (pios_bma180.c:166): textually identical body to
`PIOS_BMA180_EnableEeprom` — it also sets bit 4 (`byte |= 0x10`) and writes the
same byte back. -/
def PIOS_BMA180_DisableEeprom (getClaimOk setClaimOk : Bool) (ctrreg0 : Nat) :
    Int × Option Nat :=
  let byte := PIOS_BMA180_GetReg getClaimOk ctrreg0
  if byte < 0 then (-1, none)
  else
    match PIOS_BMA180_SetReg setClaimOk (byte.toNat ||| 0x10) with
    | (r, w) => if r < 0 then (-1, w) else (0, w)

/-- C3: the EEPROM-unlock helper pair computes identical functions: for every
bus outcome and every byte read from `BMA_CTRREG0`, enable and disable return
the same code and write the same byte back, and every written byte has bit 4
set — the "disable" path never clears the write-enable bit. -/
theorem enableEeprom_eq_disableEeprom :
    ∀ (g s : Bool) (c : Nat),
      PIOS_BMA180_EnableEeprom g s c = PIOS_BMA180_DisableEeprom g s c ∧
      ∀ b, b ∈ (PIOS_BMA180_EnableEeprom g s c).2 → b.testBit 4 = true := by
  intro g s c
  refine ⟨rfl, ?_⟩
  intro b hb
  cases g with
  | false =>
    simp [PIOS_BMA180_EnableEeprom, PIOS_BMA180_GetReg] at hb
  | true =>
    cases s with
    | false =>
      simp [PIOS_BMA180_EnableEeprom, PIOS_BMA180_GetReg, PIOS_BMA180_SetReg] at hb
    | true =>
      have hmod : c % 256 < 256 := Nat.mod_lt _ (by norm_num)
      have hlt : c % 256 ||| 16 < 256 := by
        have h2 : (16 : Nat) < 2 ^ 8 := by norm_num
        have h1 : c % 256 < 2 ^ 8 := by simpa using hmod
        simpa using Nat.or_lt_two_pow h1 h2
      have hnneg : ¬ ((c : Int) % 256 < 0) := by omega
      have hcast : ((c : Int) % 256).toNat = c % 256 := by omega
      have h2 : (PIOS_BMA180_EnableEeprom true true c).2 =
          some ((c % 256 ||| 16) % 256) := by
        simp [PIOS_BMA180_EnableEeprom, PIOS_BMA180_GetReg, PIOS_BMA180_SetReg,
          hnneg, hcast]
      rw [h2] at hb
      have hb' : (c % 256 ||| 16) % 256 = b := Option.some_inj.mp hb
      rw [← hb', Nat.mod_eq_of_lt hlt, Nat.testBit_or]
      have h16 : Nat.testBit 16 4 = true := by decide
      simp [h16]

/-- Concrete run of the C3 theorem: with both bus claims succeeding and
`BMA_CTRREG0` reading 0, the byte written back is `0x10`, whose bit 4 is set. -/
theorem enableEeprom_eq_disableEeprom_witness : Nat.testBit 16 4 = true :=
  (enableEeprom_eq_disableEeprom true true 0).2 16 (by decide)

/-- Two's-complement reading of a 16-bit word as a C `int16_t`. -/
def int16OfBits (w : Nat) : Int :=
  if w % 65536 < 32768 then ((w % 65536 : Nat) : Int)
  else ((w % 65536 : Nat) : Int) - 65536

/-- The `int16_t` arithmetic of pios_bma180.c:273-278: assemble
`(msb << 8) | lsb` into an `int16_t` and divide by 4 (C integer division
truncates toward zero, hence `Int.div`). -/
def accelChannel (lsb msb : Nat) : Int :=
  Int.tdiv (int16OfBits ((msb % 256) <<< 8 ||| (lsb % 256))) 4

/-- `PIOS_BMA180_ReadAccels` (pios_bma180.c:259): read one (x,y,z) sample.
`claimOk` models `PIOS_BMA180_ClaimBus`'s external claim, `transferOk` the
result of `PIOS_SPI_TransferBlock`, `rec` the bytes the device answers.
Returns the C return code, the SPI bus state on exit, and the decoded sample
when successful.  Return codes: -1 unable to claim bus, -2 unable to transfer
data, 0 success. -/
def PIOS_BMA180_ReadAccels (claimOk transferOk : Bool) (rec : Fin 7 → Nat)
    (bus : SpiBus) : Int × SpiBus × Option (Fin 3 → Int) :=
  match PIOS_BMA180_ClaimBus claimOk bus with
  | (r, bus1) =>
    if r ≠ 0 then (-1, bus1, none)
    else if ¬ transferOk then (-2, bus1, none)
    else
      let bus2 := (PIOS_BMA180_ReleaseBus bus1).2
      (0, bus2,
        some ![accelChannel (rec 1) (rec 2), accelChannel (rec 3) (rec 4),
               accelChannel (rec 5) (rec 6)])

/-- C10: `PIOS_BMA180_ReadAccels` releases the SPI bus only on its success
path: a failed claim returns -1 with the bus never claimed and untouched; a
failed transfer returns -2 with the bus still claimed and the chip still
selected (`PIOS_BMA180_ReleaseBus` is not called on that path); success
returns 0 with the bus released and deselected. -/
theorem readAccels_bus_release :
    ∀ (t : Bool) (rec : Fin 7 → Nat) (bus : SpiBus),
      PIOS_BMA180_ReadAccels false t rec bus = (-1, bus, none) ∧
      (PIOS_BMA180_ReadAccels true false rec bus).1 = -2 ∧
      (PIOS_BMA180_ReadAccels true false rec bus).2.1 =
        { claimed := true, selected := true } ∧
      (PIOS_BMA180_ReadAccels true true rec bus).1 = 0 ∧
      (PIOS_BMA180_ReadAccels true true rec bus).2.1 =
        { claimed := false, selected := false } := by
  intro t rec bus
  refine ⟨?_, ?_, ?_, ?_, ?_⟩ <;>
    simp [PIOS_BMA180_ReadAccels, PIOS_BMA180_ClaimBus, PIOS_BMA180_ReleaseBus]

/-- Modelled from the spec: the raw-measurement producer/consumer byte buffer
(`fifo_buffer.h`, not among the sources).  `size` is the capacity in bytes,
`buffer` the stored bytes, oldest first. -/
structure FifoBuf where
  size : Nat
  buffer : List Nat
deriving DecidableEq, Repr

/-- Modelled from the spec: free space of the FIFO in bytes
(`fifoBuf_getFree`, declared in the missing `fifo_buffer.h`). -/
def fifoBuf_getFree (f : FifoBuf) : Nat := f.size - f.buffer.length

/-- Modelled from the spec: append bytes to the FIFO (`fifoBuf_putData`,
declared in the missing `fifo_buffer.h`); at most the free space is written. -/
def fifoBuf_putData (f : FifoBuf) (bytes : List Nat) : FifoBuf :=
  { f with buffer := f.buffer ++ bytes.take (fifoBuf_getFree f) }

/-- Little-endian byte image of one C `int16_t`. -/
def int16Bytes (v : Int) : List Nat :=
  [(v.emod 65536).toNat % 256, (v.emod 65536).toNat / 256]

/-- The byte image of the C `int16_t accels[3]` array, as handed to
`fifoBuf_putData` with `sizeof(accels) = 6`. -/
def accelBytes (a : Fin 3 → Int) : List Nat :=
  int16Bytes (a 0) ++ int16Bytes (a 1) ++ int16Bytes (a 2)

/-- Driver state touched by the interrupt handler: the sample counter
`pios_bma180_count` (a C `uint32_t`, hence the `% 2 ^ 32` below), the
downsampling FIFO `pios_bma180_fifo`, and the SPI bus. -/
structure IrqState where
  pios_bma180_count : Nat
  fifo : FifoBuf
  bus : SpiBus
deriving DecidableEq, Repr

/-- `PIOS_BMA180_IRQHandler` (pios_bma180.c:335): increment `pios_bma180_count`
(32-bit wrap-around), read one sample, and push its 6 bytes to the FIFO only
when the read succeeded and at least `sizeof(accels) = 6` bytes are free. -/
def PIOS_BMA180_IRQHandler (claimOk transferOk : Bool) (rec : Fin 7 → Nat)
    (s : IrqState) : IrqState :=
  let s1 : IrqState := { s with pios_bma180_count := (s.pios_bma180_count + 1) % 2 ^ 32 }
  match PIOS_BMA180_ReadAccels claimOk transferOk rec s.bus with
  | (r, bus1, d) =>
    let s2 : IrqState := { s1 with bus := bus1 }
    if r < 0 then s2
    else if fifoBuf_getFree s2.fifo < 6 then s2
    else
      match d with
      | some a => { s2 with fifo := fifoBuf_putData s2.fifo (accelBytes a) }
      | none => s2

/-- C9: every invocation of the IRQ handler increments `pios_bma180_count` by
exactly one (in the driver's 32-bit arithmetic), and the FIFO is modified only
when the accelerometer read succeeds and at least 6 bytes are free; in every
other case the FIFO contents are returned unchanged, so a full FIFO is never
overwritten. -/
theorem irqHandler_spec :
    ∀ (c t : Bool) (rec : Fin 7 → Nat) (s : IrqState),
      (PIOS_BMA180_IRQHandler c t rec s).pios_bma180_count =
        (s.pios_bma180_count + 1) % 2 ^ 32 ∧
      (((PIOS_BMA180_ReadAccels c t rec s.bus).1 < 0 ∨ fifoBuf_getFree s.fifo < 6) →
        (PIOS_BMA180_IRQHandler c t rec s).fifo = s.fifo) ∧
      ((PIOS_BMA180_ReadAccels c t rec s.bus).1 = 0 → ¬ fifoBuf_getFree s.fifo < 6 →
        ∃ a, (PIOS_BMA180_ReadAccels c t rec s.bus).2.2 = some a ∧
          (PIOS_BMA180_IRQHandler c t rec s).fifo =
            fifoBuf_putData s.fifo (accelBytes a)) := by
  intro c t rec s
  cases c with
  | false =>
    refine ⟨?_, ?_, ?_⟩ <;>
      simp [PIOS_BMA180_IRQHandler, PIOS_BMA180_ReadAccels, PIOS_BMA180_ClaimBus]
  | true =>
    cases t with
    | false =>
      refine ⟨?_, ?_, ?_⟩ <;>
        simp [PIOS_BMA180_IRQHandler, PIOS_BMA180_ReadAccels, PIOS_BMA180_ClaimBus]
    | true =>
      by_cases hfree : fifoBuf_getFree s.fifo < 6
      · refine ⟨?_, ?_, ?_⟩ <;>
          simp [PIOS_BMA180_IRQHandler, PIOS_BMA180_ReadAccels, PIOS_BMA180_ClaimBus,
            PIOS_BMA180_ReleaseBus, hfree]
      · refine ⟨?_, ?_, ?_⟩ <;>
          simp [PIOS_BMA180_IRQHandler, PIOS_BMA180_ReadAccels, PIOS_BMA180_ClaimBus,
            PIOS_BMA180_ReleaseBus, hfree]

/-- Concrete run of the C9 theorem: with only 4 bytes free the handler leaves
the FIFO untouched even though the read succeeds. -/
theorem irqHandler_spec_witness :
    fifoBuf_getFree ⟨4, []⟩ < 6 ∧
    (PIOS_BMA180_IRQHandler true true (fun _ => 0)
      ⟨0, ⟨4, []⟩, ⟨false, false⟩⟩).fifo = ⟨4, []⟩ :=
  ⟨by decide,
    (irqHandler_spec true true (fun _ => 0) ⟨0, ⟨4, []⟩, ⟨false, false⟩⟩).2.1
      (Or.inr (by decide))⟩

end Bma180

namespace rtslam

open Matrix

/-- Filter state of `ExtendedKalmanFilterIndirect` (kalmanFilter.hpp:29): the
state mean `x_` and the covariance matrix `P_` of a filter whose storage is
allocated once with size `n` at construction (`ExtendedKalmanFilterIndirect
(size_t _size)`) and never resized; operations address sub-blocks through
indirect arrays.  Scalars are modelled exactly over `ℚ`. -/
structure Filt (n : ℕ) where
  x : Fin n → ℚ
  P : Matrix (Fin n) (Fin n) ℚ
deriving DecidableEq

/-- Position of state index `i` inside the indirect array `ia` (a `jblas
ind_array` is modelled as the ordered list of selected indices): `some a` when
`i` is the `a`-th selected index, `none` when `i` is not selected. -/
def posIn {n : ℕ} (ia : List (Fin n)) (i : Fin n) : Option (Fin ia.length) :=
  if h : i ∈ ia then some ⟨ia.indexOf i, List.indexOf_lt_length.mpr h⟩ else none

/-- Modelled from the spec: the numerical matrix inverse used by the correction
step (`inverse(Z)`, kalmanFilter.hpp:108, body missing from the sources),
realised exactly over `ℚ` by the adjugate formula; for any matrix this agrees
with Mathlib's noncomputable `Matrix.inv` (lemma `matInv_eq_inv`). -/
def matInv {k : ℕ} (A : Matrix (Fin k) (Fin k) ℚ) : Matrix (Fin k) (Fin k) ℚ :=
  (A.det)⁻¹ • A.adjugate

/-- Modelled from the spec: the mandatory post-correction symmetrization of the
covariance, `P ← 0.5·(P + Pᵗ)` (§4.3 of the spec). -/
def symmetrize {n : ℕ} (P : Matrix (Fin n) (Fin n) ℚ) : Matrix (Fin n) (Fin n) ℚ :=
  (1 / 2 : ℚ) • (P + Pᵀ)

/-- The Innovation contract consumed by `correct` (rtslam/innovation.hpp is not
among the sources; fields follow §6 of the spec and the doc comment of
kalmanFilter.hpp:96): mean `z` and covariance `Z` of the innovation, the
Jacobian `INN_rsl` wrt the contributing states, and the indirect array
`ia_rsl` of those states. -/
structure Innovation (n : ℕ) where
  isize : ℕ
  z : Fin isize → ℚ
  Z : Matrix (Fin isize) (Fin isize) ℚ
  ia_rsl : List (Fin n)
  INN_rsl : Matrix (Fin isize) (Fin ia_rsl.length) ℚ

/-- Modelled from the spec: the indexed "sandwich rule" block update shared by
`predict`, `initialize` and `reparametrize`, whose bodies are missing from the
sources; the shape is fixed by the header formula (kalmanFilter.hpp:68)
`[Pvv, Pvm; Pmv, Pmm] = [A·Pss·Aᵗ + D, A·Psm; Pms·Aᵗ, Pmm]` with `s = src`:
rows and columns at `dst` receive the transformed `src` block plus `D`, the
cross blocks with the other used states `m ⊆ iax` are transformed on the `src`
side, and every entry with a row or column outside `iax ∪ dst` is untouched. -/
def sandwich {n : ℕ} (iax src dst : List (Fin n))
    (A : Matrix (Fin dst.length) (Fin src.length) ℚ)
    (D : Matrix (Fin dst.length) (Fin dst.length) ℚ)
    (P : Matrix (Fin n) (Fin n) ℚ) : Matrix (Fin n) (Fin n) ℚ :=
  fun i j =>
    match posIn dst i, posIn dst j with
    | some a, some b => (A * P.submatrix src.get src.get * Aᵀ + D) a b
    | some a, none => if j ∈ iax then (A * P.submatrix src.get id) a j else P i j
    | none, some b => if i ∈ iax then (P.submatrix id src.get * Aᵀ) i b else P i j
    | none, none => P i j

/-- Modelled from the spec (state-space-noise `predict`, kalmanFilter.hpp:93,
body missing from the sources): `Pvv ← F_v·Pvv·F_vᵗ + Q`, `Pvm ← F_v·Pvm`,
`Pmv ← Pmv·F_vᵗ`, `Pmm` unchanged, with `v = iav` and `m = iax \ iav`; the
mean `x` is not modified and the filter is not resized. -/
def predictQ {n : ℕ} (iax iav : List (Fin n))
    (F_v : Matrix (Fin iav.length) (Fin iav.length) ℚ)
    (Q : Matrix (Fin iav.length) (Fin iav.length) ℚ) (s : Filt n) : Filt n :=
  { s with P := sandwich iax iav iav F_v Q s.P }

/-- Modelled from the spec (control-space-noise `predict`, kalmanFilter.hpp:76,
body missing from the sources): identical to the state-space form with the
perturbation mapped into the state space, `Pvv ← F_v·Pvv·F_vᵗ + F_u·U·F_uᵗ`. -/
def predictU {n : ℕ} (iax iav : List (Fin n))
    (F_v : Matrix (Fin iav.length) (Fin iav.length) ℚ) (usize : ℕ)
    (F_u : Matrix (Fin iav.length) (Fin usize) ℚ)
    (U : Matrix (Fin usize) (Fin usize) ℚ) (s : Filt n) : Filt n :=
  { s with P := sandwich iax iav iav F_v (F_u * U * F_uᵀ) s.P }

/-- Modelled from the spec (`computeK`, declared kalmanFilter.hpp:158, body
missing from the sources): `K = -S·INN_rslᵗ·inverse(Z)` with
`S = covAt(iax, ia_rsl)` the cross-covariance between all used states and the
contributing states (§4.3 of the spec). -/
def computeK {n : ℕ} (iax : List (Fin n)) (P : Matrix (Fin n) (Fin n) ℚ)
    (inn : Innovation n) : Matrix (Fin iax.length) (Fin inn.isize) ℚ :=
  -(P.submatrix iax.get inn.ia_rsl.get) * inn.INN_rslᵀ * matInv inn.Z

/-- Modelled from the spec (`updateP`, declared kalmanFilter.hpp:159, body
missing from the sources): `P[iax,iax] += K·INN_rsl·P[ia_rsl,iax]`; entries
with a row or column outside the used states are untouched.  `correct`
symmetrizes this result afterwards. -/
def updateP {n : ℕ} (iax : List (Fin n)) (inn : Innovation n)
    (P : Matrix (Fin n) (Fin n) ℚ) : Matrix (Fin n) (Fin n) ℚ :=
  fun i j =>
    match posIn iax i, posIn iax j with
    | some a, some b =>
      P i j + (computeK iax P inn * inn.INN_rsl *
        P.submatrix inn.ia_rsl.get iax.get) a b
    | _, _ => P i j

/-- The failure taxonomy of §7 of the spec.  In this typed model shape
mismatches and out-of-range indices are unrepresentable (Jacobian dimensions
are tied to their index sets, indices live in `Fin n`), so the only
dynamically detected failure is a singular innovation covariance. -/
inductive KfError where
  | numericalInstability
  | shapeMismatch
  | indexOutOfRange
deriving DecidableEq, Repr

/-- Modelled from the spec (`correct`, kalmanFilter.hpp:113, body missing from
the sources): validate the innovation covariance first — a singular `Z` fails
with a numerical-instability condition and no state change — then apply
`K = computeK`, `x[iax] += K·z`, `P[iax,iax] += K·INN_rsl·P[ia_rsl,iax]`, and
the mandatory symmetrization `P ← 0.5·(P + Pᵗ)`. -/
def correct {n : ℕ} (iax : List (Fin n)) (inn : Innovation n) (s : Filt n) :
    Except KfError (Filt n) :=
  if inn.Z.det = 0 then .error .numericalInstability
  else
    .ok { x := fun i =>
            match posIn iax i with
            | some a => s.x i + (computeK iax s.P inn *ᵥ inn.z) a
            | none => s.x i
          P := symmetrize (updateP iax inn s.P) }

/-- Modelled from the spec (`initialize`, fully observable form,
kalmanFilter.hpp:127, body missing from the sources): the covariance of the
new landmark block `ia_l` (indices reserved for the landmark) is
`P[l,l] = G_rs·P[rs,rs]·G_rsᵗ + G_y·R·G_yᵗ` and its cross-covariance with
every other used block is `P[l,m] = G_rs·P[rs,m]`; the landmark mean is
produced by the external back-projection, so the core leaves `x` unchanged. -/
def initializeFull {n : ℕ} (iax ia_rs ia_l : List (Fin n))
    (G_rs : Matrix (Fin ia_l.length) (Fin ia_rs.length) ℚ) (msize : ℕ)
    (G_y : Matrix (Fin ia_l.length) (Fin msize) ℚ)
    (R : Matrix (Fin msize) (Fin msize) ℚ) (s : Filt n) : Filt n :=
  { s with P := sandwich iax ia_rs ia_l G_rs (G_y * R * G_yᵀ) s.P }

/-- Modelled from the spec (`initialize`, partially observable form,
kalmanFilter.hpp:141, body missing from the sources): as the fully observable
form with the extra unmeasured-prior term `P[l,l] += G_n·N·G_nᵗ`. -/
def initializePartial {n : ℕ} (iax ia_rs ia_l : List (Fin n))
    (G_rs : Matrix (Fin ia_l.length) (Fin ia_rs.length) ℚ) (msize : ℕ)
    (G_y : Matrix (Fin ia_l.length) (Fin msize) ℚ)
    (R : Matrix (Fin msize) (Fin msize) ℚ) (nsize : ℕ)
    (G_n : Matrix (Fin ia_l.length) (Fin nsize) ℚ)
    (N : Matrix (Fin nsize) (Fin nsize) ℚ) (s : Filt n) : Filt n :=
  { s with P := sandwich iax ia_rs ia_l G_rs (G_y * R * G_yᵀ + G_n * N * G_nᵀ) s.P }

/-- Modelled from the spec (`reparametrize`, kalmanFilter.hpp:152, body missing
from the sources): sandwich rule on mean and covariance of the transformed
block, `x[new] = J_l·x[old]`, `P[new,new] = J_l·P[old,old]·J_lᵗ`,
`P[new,m] = J_l·P[old,m]` for the other used blocks. -/
def reparametrize {n : ℕ} (iax ia_old ia_new : List (Fin n))
    (J_l : Matrix (Fin ia_new.length) (Fin ia_old.length) ℚ) (s : Filt n) : Filt n :=
  { x := fun i =>
      match posIn ia_new i with
      | some a => (J_l *ᵥ fun c => s.x (ia_old.get c)) a
      | none => s.x i
    P := sandwich iax ia_old ia_new J_l 0 s.P }

/-- Modelled from the spec (`stackCorrection`, kalmanFilter.hpp:154, body
missing from the sources): accumulate one innovation into the pending batch
without touching `x`/`P`. -/
def stackCorrection {n : ℕ} (inn : Innovation n) (stack : List (Innovation n)) :
    List (Innovation n) :=
  stack ++ [inn]

/-- Modelled from the spec (§4.6): combine two innovations — vertically
concatenate `z`, block-diagonally concatenate `Z`, and row-concatenate
`INN_rsl` aligned to the union of the contributing index sets. -/
def combineInn {n : ℕ} (i1 i2 : Innovation n) : Innovation n where
  isize := i1.isize + i2.isize
  z := fun r => Sum.elim i1.z i2.z (finSumFinEquiv.symm r)
  Z := fun r c =>
    Matrix.fromBlocks i1.Z 0 0 i2.Z (finSumFinEquiv.symm r) (finSumFinEquiv.symm c)
  ia_rsl := i1.ia_rsl ++ i2.ia_rsl.filter (fun j => decide (j ∉ i1.ia_rsl))
  INN_rsl := fun r c =>
    Sum.elim
      (fun r1 =>
        match posIn i1.ia_rsl
            ((i1.ia_rsl ++ i2.ia_rsl.filter (fun j => decide (j ∉ i1.ia_rsl))).get c) with
        | some c1 => i1.INN_rsl r1 c1
        | none => 0)
      (fun r2 =>
        match posIn i2.ia_rsl
            ((i1.ia_rsl ++ i2.ia_rsl.filter (fun j => decide (j ∉ i1.ia_rsl))).get c) with
        | some c2 => i2.INN_rsl r2 c2
        | none => 0)
      (finSumFinEquiv.symm r)

/-- Modelled from the spec (`correctAllStacked`, kalmanFilter.hpp:155, body
missing from the sources): with an empty batch this is a no-op, not an error;
otherwise apply one `correct` with the combined innovation and clear the
batch. -/
def correctAllStacked {n : ℕ} (iax : List (Fin n)) (stack : List (Innovation n))
    (s : Filt n) : Except KfError (Filt n × List (Innovation n)) :=
  match stack with
  | [] => .ok (s, [])
  | inn :: rest =>
    (correct iax (rest.foldl combineInn inn) s).map (fun s' => (s', []))

/-- One call to a mutating filter operation together with its arguments; used
to state the §8 sequence invariants over arbitrary call sequences. -/
inductive Op (n : ℕ) where
  | predictU (iax iav : List (Fin n))
      (F_v : Matrix (Fin iav.length) (Fin iav.length) ℚ) (usize : ℕ)
      (F_u : Matrix (Fin iav.length) (Fin usize) ℚ)
      (U : Matrix (Fin usize) (Fin usize) ℚ) : Op n
  | predictQ (iax iav : List (Fin n))
      (F_v Q : Matrix (Fin iav.length) (Fin iav.length) ℚ) : Op n
  | correct (iax : List (Fin n)) (inn : Innovation n) : Op n
  | initializeFull (iax ia_rs ia_l : List (Fin n))
      (G_rs : Matrix (Fin ia_l.length) (Fin ia_rs.length) ℚ) (msize : ℕ)
      (G_y : Matrix (Fin ia_l.length) (Fin msize) ℚ)
      (R : Matrix (Fin msize) (Fin msize) ℚ) : Op n
  | initializePartial (iax ia_rs ia_l : List (Fin n))
      (G_rs : Matrix (Fin ia_l.length) (Fin ia_rs.length) ℚ) (msize : ℕ)
      (G_y : Matrix (Fin ia_l.length) (Fin msize) ℚ)
      (R : Matrix (Fin msize) (Fin msize) ℚ) (nsize : ℕ)
      (G_n : Matrix (Fin ia_l.length) (Fin nsize) ℚ)
      (N : Matrix (Fin nsize) (Fin nsize) ℚ) : Op n
  | reparametrize (iax ia_old ia_new : List (Fin n))
      (J_l : Matrix (Fin ia_new.length) (Fin ia_old.length) ℚ) : Op n

/-- Apply one operation to a filter state; per §4 only `correct` can fail
dynamically (singular innovation covariance). -/
def applyOp {n : ℕ} (s : Filt n) : Op n → Except KfError (Filt n)
  | .predictU iax iav F_v usize F_u U => .ok (predictU iax iav F_v usize F_u U s)
  | .predictQ iax iav F_v Q => .ok (predictQ iax iav F_v Q s)
  | .correct iax inn => correct iax inn s
  | .initializeFull iax ia_rs ia_l G_rs msize G_y R =>
      .ok (initializeFull iax ia_rs ia_l G_rs msize G_y R s)
  | .initializePartial iax ia_rs ia_l G_rs msize G_y R nsize G_n N =>
      .ok (initializePartial iax ia_rs ia_l G_rs msize G_y R nsize G_n N s)
  | .reparametrize iax ia_old ia_new J_l => .ok (reparametrize iax ia_old ia_new J_l s)

/-- Run one operation under the all-or-nothing policy of §7: a failing
operation leaves the state exactly as it was. -/
def runOp {n : ℕ} (s : Filt n) (op : Op n) : Filt n :=
  match applyOp s op with
  | .ok s' => s'
  | .error _ => s

/-- Run a finite sequence of operations. -/
def runOps {n : ℕ} (s : Filt n) (ops : List (Op n)) : Filt n := ops.foldl runOp s

/-- Valid inputs, as needed by the symmetry invariant: every noise covariance
handed to an operation is symmetric (the §3/§6 contracts require symmetric
`U`, `Q`, `R`, `N`); `correct` and `reparametrize` need nothing extra. -/
def OpValid {n : ℕ} : Op n → Prop
  | .predictU _ _ _ _ _ U => U.IsSymm
  | .predictQ _ _ _ Q => Q.IsSymm
  | .correct _ _ => True
  | .initializeFull _ _ _ _ _ _ R => R.IsSymm
  | .initializePartial _ _ _ _ _ _ R _ _ N => R.IsSymm ∧ N.IsSymm
  | .reparametrize _ _ _ _ => True

lemma posIn_eq_none {n : ℕ} {ia : List (Fin n)} {i : Fin n} (h : i ∉ ia) :
    posIn ia i = none := dif_neg h

lemma indexOf_get_self {n : ℕ} {ia : List (Fin n)} (h : ia.Nodup)
    (a : Fin ia.length) : ia.indexOf (ia.get a) = a.val := by
  have hmem : ia.get a ∈ ia := ia.get_mem a.1 a.2
  have hlt : ia.indexOf (ia.get a) < ia.length := List.indexOf_lt_length.mpr hmem
  have hg : ia.get ⟨ia.indexOf (ia.get a), hlt⟩ = ia.get a := List.indexOf_get hlt
  exact congrArg Fin.val (h.get_inj_iff.mp hg)

lemma posIn_get {n : ℕ} {ia : List (Fin n)} (h : ia.Nodup) (a : Fin ia.length) :
    posIn ia (ia.get a) = some a := by
  unfold posIn
  rw [dif_pos (ia.get_mem a.1 a.2)]
  congr 1
  exact Fin.ext (indexOf_get_self h a)

lemma posIn_eq_some {n : ℕ} {ia : List (Fin n)} {i : Fin n} {a : Fin ia.length}
    (h : posIn ia i = some a) : ia.get a = i := by
  rw [posIn] at h
  by_cases hm : i ∈ ia
  · rw [dif_pos hm] at h
    obtain rfl := Option.some_inj.mp h
    exact List.indexOf_get _
  · rw [dif_neg hm] at h
    exact absurd h (by simp)

lemma symmetrize_isSymm {n : ℕ} (P : Matrix (Fin n) (Fin n) ℚ) :
    (symmetrize P).IsSymm := by
  show (symmetrize P)ᵀ = symmetrize P
  unfold symmetrize
  ext i j
  simp [Matrix.transpose_apply, Matrix.add_apply]
  ring

lemma symmetrize_of_isSymm {n : ℕ} {P : Matrix (Fin n) (Fin n) ℚ}
    (h : P.IsSymm) : symmetrize P = P := by
  unfold symmetrize
  rw [h.eq]
  ext i j
  simp [Matrix.add_apply]
  ring

lemma matInv_eq_inv {k : ℕ} (A : Matrix (Fin k) (Fin k) ℚ) : matInv A = A⁻¹ := by
  rw [Matrix.inv_def, Ring.inverse_eq_inv']
  rfl

lemma matInv_isSymm {k : ℕ} {Z : Matrix (Fin k) (Fin k) ℚ} (h : Z.IsSymm) :
    (matInv Z).IsSymm := by
  show (matInv Z)ᵀ = matInv Z
  rw [matInv_eq_inv, Matrix.transpose_nonsing_inv, h.eq]

/-- The sandwiched block `A·S·Aᵗ + D` is symmetric when `S` and `D` are. -/
lemma sandwich_core_isSymm {a b : ℕ} {A : Matrix (Fin a) (Fin b) ℚ}
    {S : Matrix (Fin b) (Fin b) ℚ} {D : Matrix (Fin a) (Fin a) ℚ}
    (hS : Sᵀ = S) (hD : Dᵀ = D) :
    (A * S * Aᵀ + D)ᵀ = A * S * Aᵀ + D := by
  rw [Matrix.transpose_add, Matrix.transpose_mul, Matrix.transpose_mul,
    Matrix.transpose_transpose, hD, hS, Matrix.mul_assoc]

/-- The indexed sandwich update preserves symmetry of the full covariance. -/
lemma sandwich_isSymm {n : ℕ} {iax src dst : List (Fin n)}
    {A : Matrix (Fin dst.length) (Fin src.length) ℚ}
    {D : Matrix (Fin dst.length) (Fin dst.length) ℚ}
    {P : Matrix (Fin n) (Fin n) ℚ} (hP : P.IsSymm) (hD : D.IsSymm) :
    (sandwich iax src dst A D P).IsSymm := by
  have hS : (P.submatrix src.get src.get)ᵀ = P.submatrix src.get src.get := by
    rw [Matrix.transpose_submatrix, hP.eq]
  have hcore := sandwich_core_isSymm (A := A) hS hD.eq
  show (sandwich iax src dst A D P)ᵀ = sandwich iax src dst A D P
  ext i j
  rw [Matrix.transpose_apply]
  unfold sandwich
  rcases hj : posIn dst j with - | b <;> rcases hi : posIn dst i with - | a <;>
    simp only [hj, hi]
  · exact hP.apply i j
  · by_cases hm : j ∈ iax
    · rw [if_pos hm, if_pos hm]
      simp only [Matrix.mul_apply, Matrix.submatrix_apply, Matrix.transpose_apply, id]
      refine Finset.sum_congr rfl (fun c _ => ?_)
      rw [hP.apply (src.get c) j]
      ring
    · rw [if_neg hm, if_neg hm]
      exact hP.apply i j
  · by_cases hm : i ∈ iax
    · rw [if_pos hm, if_pos hm]
      simp only [Matrix.mul_apply, Matrix.submatrix_apply, Matrix.transpose_apply, id]
      refine Finset.sum_congr rfl (fun c _ => ?_)
      rw [hP.apply (src.get c) i]
      ring
    · rw [if_neg hm, if_neg hm]
      exact hP.apply i j
  · exact congrFun (congrFun hcore a) b

/-- `A·U·Aᵗ` is symmetric when `U` is. -/
lemma mulSandwich_isSymm {a b : ℕ} {A : Matrix (Fin a) (Fin b) ℚ}
    {U : Matrix (Fin b) (Fin b) ℚ} (hU : U.IsSymm) : (A * U * Aᵀ).IsSymm := by
  show (A * U * Aᵀ)ᵀ = A * U * Aᵀ
  rw [Matrix.transpose_mul, Matrix.transpose_mul, Matrix.transpose_transpose,
    hU.eq, Matrix.mul_assoc]

/-- The correction block `K·INN_rsl·P[ia_rsl,iax]` is symmetric over the `iax`
positions when `P` and `Z` are symmetric. -/
lemma updateP_block_isSymm {n : ℕ} {iax : List (Fin n)} {inn : Innovation n}
    {P : Matrix (Fin n) (Fin n) ℚ} (hP : P.IsSymm) (hZ : inn.Z.IsSymm) :
    (computeK iax P inn * inn.INN_rsl * P.submatrix inn.ia_rsl.get iax.get)ᵀ =
      computeK iax P inn * inn.INN_rsl * P.submatrix inn.ia_rsl.get iax.get := by
  have hPr : (P.submatrix inn.ia_rsl.get iax.get)ᵀ =
      P.submatrix iax.get inn.ia_rsl.get := by
    rw [Matrix.transpose_submatrix, hP.eq]
  have hSx : (P.submatrix iax.get inn.ia_rsl.get)ᵀ =
      P.submatrix inn.ia_rsl.get iax.get := by
    rw [Matrix.transpose_submatrix, hP.eq]
  have hZi : (matInv inn.Z)ᵀ = matInv inn.Z := (matInv_isSymm hZ).eq
  unfold computeK
  simp only [Matrix.transpose_mul, Matrix.transpose_neg, Matrix.transpose_transpose,
    hPr, hSx, hZi]
  simp only [Matrix.neg_mul, Matrix.mul_neg, Matrix.mul_assoc]

/-- The pre-symmetrization correction update preserves symmetry of `P`. -/
lemma updateP_isSymm {n : ℕ} {iax : List (Fin n)} {inn : Innovation n}
    {P : Matrix (Fin n) (Fin n) ℚ} (hP : P.IsSymm) (hZ : inn.Z.IsSymm) :
    (updateP iax inn P).IsSymm := by
  have hM := @updateP_block_isSymm n iax inn P hP hZ
  show (updateP iax inn P)ᵀ = updateP iax inn P
  ext i j
  rw [Matrix.transpose_apply]
  unfold updateP
  rcases hj : posIn iax j with - | b <;> rcases hi : posIn iax i with - | a <;>
    simp only [hj, hi]
  · exact hP.apply i j
  · exact hP.apply i j
  · exact hP.apply i j
  · rw [hP.apply i j]
    exact congrArg (_ + ·) (congrFun (congrFun hM a) b)

/-- Successful corrections produce exactly the symmetrized update. -/
lemma correct_ok_inv {n : ℕ} {iax : List (Fin n)} {inn : Innovation n}
    {t t' : Filt n} (h : correct iax inn t = .ok t') :
    t'.P = symmetrize (updateP iax inn t.P) ∧
    t'.x = fun i =>
      match posIn iax i with
      | some a => t.x i + (computeK iax t.P inn *ᵥ inn.z) a
      | none => t.x i := by
  unfold correct at h
  by_cases hdet : inn.Z.det = 0
  · rw [if_pos hdet] at h
    exact absurd h (by simp)
  · rw [if_neg hdet] at h
    injection h with h2
    rw [← h2]
    exact ⟨rfl, rfl⟩

/-- A failed correction is exactly a singular innovation covariance. -/
lemma correct_error_iff {n : ℕ} {iax : List (Fin n)} {inn : Innovation n}
    {t : Filt n} :
    (∃ e, correct iax inn t = .error e) ↔ inn.Z.det = 0 := by
  unfold correct
  by_cases hdet : inn.Z.det = 0
  · simp [hdet]
  · simp [hdet]

/-- One valid operation run preserves symmetry of the covariance. -/
lemma runOp_isSymm {n : ℕ} {s : Filt n} {op : Op n} (hv : OpValid op)
    (hP : s.P.IsSymm) : (runOp s op).P.IsSymm := by
  cases op with
  | predictU iax iav F_v usize F_u U => exact sandwich_isSymm hP (mulSandwich_isSymm hv)
  | predictQ iax iav F_v Q => exact sandwich_isSymm hP hv
  | correct iax inn =>
    rcases h : correct iax inn s with e | t'
    · have hr : runOp s (.correct iax inn) = s := by
        simp only [runOp, applyOp]
        rw [h]
      rw [hr]; exact hP
    · have hr : runOp s (.correct iax inn) = t' := by
        simp only [runOp, applyOp]
        rw [h]
      rw [hr, (correct_ok_inv h).1]
      exact symmetrize_isSymm _
  | initializeFull iax ia_rs ia_l G_rs msize G_y R =>
    exact sandwich_isSymm hP (mulSandwich_isSymm hv)
  | initializePartial iax ia_rs ia_l G_rs msize G_y R nsize G_n N =>
    exact sandwich_isSymm hP ((mulSandwich_isSymm hv.1).add (mulSandwich_isSymm hv.2))
  | reparametrize iax ia_old ia_new J_l =>
    exact sandwich_isSymm hP (Matrix.isSymm_zero)

/-- Any valid operation sequence preserves symmetry of the covariance. -/
lemma runOps_isSymm {n : ℕ} :
    ∀ (ops : List (Op n)) (s : Filt n), s.P.IsSymm →
      (∀ op ∈ ops, OpValid op) → (runOps s ops).P.IsSymm := by
  intro ops
  induction ops with
  | nil => intro s hP _; exact hP
  | cons op rest ih =>
    intro s hP hv
    exact ih (runOp s op) (runOp_isSymm (hv op (List.mem_cons_self op rest)) hP)
      (fun o ho => hv o (List.mem_cons_of_mem _ ho))

/-- C4: for every finite sequence of predict / correct / initialize /
reparametrize calls with valid (symmetric-noise) inputs, the covariance is
symmetric after every call — here: after every prefix of the sequence, a
failing call keeping the previous state; and `correct` enforces this by
producing exactly the symmetrization `0.5·(P + Pᵗ)` of its update, which is
symmetric unconditionally. -/
theorem covariance_symmetry_invariant {n : ℕ} (s : Filt n) (ops : List (Op n))
    (hP : s.P.IsSymm) (hv : ∀ op ∈ ops, OpValid op) :
    (∀ pre suf, ops = pre ++ suf → ((runOps s pre).P).IsSymm) ∧
    (∀ (iax : List (Fin n)) (inn : Innovation n) (t t' : Filt n),
      correct iax inn t = .ok t' →
        t'.P = symmetrize (updateP iax inn t.P) ∧ t'.P.IsSymm) := by
  constructor
  · intro pre suf hsplit
    refine runOps_isSymm pre s hP (fun op ho => hv op ?_)
    rw [hsplit]
    exact List.mem_append.mpr (Or.inl ho)
  · intro iax inn t t' h
    refine ⟨(correct_ok_inv h).1, ?_⟩
    rw [(correct_ok_inv h).1]
    exact symmetrize_isSymm _

/-- Concrete run of the C4 theorem: one state-space predict on a 1-dimensional
filter with symmetric inputs keeps `P` symmetric. -/
theorem covariance_symmetry_invariant_witness :
    ((runOps (⟨fun _ => 0, 1⟩ : Filt 1) [Op.predictQ [0] [0] 1 1]).P).IsSymm :=
  (covariance_symmetry_invariant (⟨fun _ => 0, 1⟩ : Filt 1)
      [Op.predictQ [0] [0] 1 1] Matrix.isSymm_one
      (by intro op ho
          simp only [List.mem_singleton] at ho
          rw [ho]
          exact Matrix.isSymm_one)).1
    [Op.predictQ [0] [0] 1 1] [] rfl

/-- C7: operations are atomic on failure: whenever an operation fails (in this
typed model the one representable failure is the numerical-instability of a
singular innovation covariance in `correct`; shape mismatches and
out-of-range indices are unrepresentable by construction), the resulting
state — mean and covariance — is exactly the state before the call. -/
theorem ops_atomic_on_failure {n : ℕ} (s : Filt n) (op : Op n) (e : KfError)
    (h : applyOp s op = .error e) :
    runOp s op = s ∧ (runOp s op).x = s.x ∧ (runOp s op).P = s.P := by
  have h1 : runOp s op = s := by
    unfold runOp
    rw [h]
  exact ⟨h1, by rw [h1], by rw [h1]⟩

/-- Concrete run of the C7 theorem: a singular (zero) innovation covariance
makes `correct` fail and leaves the state unchanged. -/
theorem ops_atomic_on_failure_witness :
    applyOp (⟨fun _ => 0, 1⟩ : Filt 1)
        (Op.correct [] ⟨1, fun _ => 0, !![0], [], 0⟩) =
      .error .numericalInstability ∧
    runOp (⟨fun _ => 0, 1⟩ : Filt 1)
        (Op.correct [] ⟨1, fun _ => 0, !![0], [], 0⟩) =
      (⟨fun _ => 0, 1⟩ : Filt 1) :=
  ⟨by simp [applyOp, correct, Matrix.det_fin_one_of],
   (ops_atomic_on_failure (⟨fun _ => 0, 1⟩ : Filt 1)
      (Op.correct [] ⟨1, fun _ => 0, !![0], [], 0⟩) .numericalInstability
      (by simp [applyOp, correct, Matrix.det_fin_one_of])).1⟩

/-- C8: `correctAllStacked` with an empty batch is a no-op, not an error: it
succeeds and returns the state and the (still empty) batch unchanged. -/
theorem correctAllStacked_empty_noop {n : ℕ} (iax : List (Fin n)) (s : Filt n) :
    correctAllStacked iax [] s = .ok (s, []) := rfl

lemma mem_of_posIn_eq_some {n : ℕ} {ia : List (Fin n)} {i : Fin n}
    {a : Fin ia.length} (h : posIn ia i = some a) : i ∈ ia := by
  by_contra hm
  rw [posIn_eq_none hm] at h
  cases h

/-- The complement block `m = iax \ iav` of used states outside the
transformed block, in the order of `iax`. -/
def restOf {n : ℕ} (iax iav : List (Fin n)) : List (Fin n) :=
  iax.filter (fun j => decide (j ∉ iav))

lemma restOf_mem {n : ℕ} {iax iav : List (Fin n)} {j : Fin n} :
    j ∈ restOf iax iav ↔ j ∈ iax ∧ j ∉ iav := by
  simp [restOf]

lemma sandwich_apply_vv {n : ℕ} {iax src dst : List (Fin n)}
    {A : Matrix (Fin dst.length) (Fin src.length) ℚ}
    {D : Matrix (Fin dst.length) (Fin dst.length) ℚ}
    {P : Matrix (Fin n) (Fin n) ℚ} (hd : dst.Nodup) (a b : Fin dst.length) :
    sandwich iax src dst A D P (dst.get a) (dst.get b) =
      (A * P.submatrix src.get src.get * Aᵀ + D) a b := by
  unfold sandwich
  rw [posIn_get hd a, posIn_get hd b]

lemma sandwich_apply_vm {n : ℕ} {iax src dst : List (Fin n)}
    {A : Matrix (Fin dst.length) (Fin src.length) ℚ}
    {D : Matrix (Fin dst.length) (Fin dst.length) ℚ}
    {P : Matrix (Fin n) (Fin n) ℚ} (hd : dst.Nodup) (a : Fin dst.length)
    {j : Fin n} (hjd : j ∉ dst) (hjx : j ∈ iax) :
    sandwich iax src dst A D P (dst.get a) j =
      (A * P.submatrix src.get id) a j := by
  unfold sandwich
  rw [posIn_get hd a, posIn_eq_none hjd]
  simp only [if_pos hjx]

lemma sandwich_apply_mv {n : ℕ} {iax src dst : List (Fin n)}
    {A : Matrix (Fin dst.length) (Fin src.length) ℚ}
    {D : Matrix (Fin dst.length) (Fin dst.length) ℚ}
    {P : Matrix (Fin n) (Fin n) ℚ} (hd : dst.Nodup) (b : Fin dst.length)
    {i : Fin n} (hid : i ∉ dst) (hix : i ∈ iax) :
    sandwich iax src dst A D P i (dst.get b) =
      (P.submatrix id src.get * Aᵀ) i b := by
  unfold sandwich
  rw [posIn_get hd b, posIn_eq_none hid]
  simp only [if_pos hix]

lemma sandwich_apply_mm {n : ℕ} {iax src dst : List (Fin n)}
    {A : Matrix (Fin dst.length) (Fin src.length) ℚ}
    {D : Matrix (Fin dst.length) (Fin dst.length) ℚ}
    {P : Matrix (Fin n) (Fin n) ℚ} {i j : Fin n} (hid : i ∉ dst) (hjd : j ∉ dst) :
    sandwich iax src dst A D P i j = P i j := by
  unfold sandwich
  rw [posIn_eq_none hid, posIn_eq_none hjd]

/-- C2: the control-space-noise `predict` updates the covariance blocks, with
`v = iav` and `m = iax \ iav`, exactly as `Pvv ← F_v·Pvv·F_vᵗ + F_u·U·F_uᵗ`,
`Pvm ← F_v·Pvm`, `Pmv ← Pvmᵗ` (of the updated `Pvm`, using symmetry of `P`),
`Pmm` unchanged; and the state-space-noise form is the identical update with
`F_u·U·F_uᵗ` replaced by `Q`. -/
theorem predict_blocks {n : ℕ} (iax iav : List (Fin n))
    (F_v : Matrix (Fin iav.length) (Fin iav.length) ℚ) (usize : ℕ)
    (F_u : Matrix (Fin iav.length) (Fin usize) ℚ)
    (U : Matrix (Fin usize) (Fin usize) ℚ)
    (Q : Matrix (Fin iav.length) (Fin iav.length) ℚ) (s : Filt n)
    (hv : iav.Nodup) (hsub : iav ⊆ iax) (hP : s.P.IsSymm) :
    ((predictU iax iav F_v usize F_u U s).P.submatrix iav.get iav.get =
      F_v * s.P.submatrix iav.get iav.get * F_vᵀ + F_u * U * F_uᵀ) ∧
    ((predictU iax iav F_v usize F_u U s).P.submatrix iav.get (restOf iax iav).get =
      F_v * s.P.submatrix iav.get (restOf iax iav).get) ∧
    ((predictU iax iav F_v usize F_u U s).P.submatrix (restOf iax iav).get iav.get =
      ((predictU iax iav F_v usize F_u U s).P.submatrix iav.get (restOf iax iav).get)ᵀ) ∧
    ((predictU iax iav F_v usize F_u U s).P.submatrix (restOf iax iav).get (restOf iax iav).get =
      s.P.submatrix (restOf iax iav).get (restOf iax iav).get) ∧
    (predictU iax iav F_v usize F_u U s = predictQ iax iav F_v (F_u * U * F_uᵀ) s) ∧
    ((predictQ iax iav F_v Q s).P.submatrix iav.get iav.get =
      F_v * s.P.submatrix iav.get iav.get * F_vᵀ + Q) := by
  have hmm : ∀ b : Fin (restOf iax iav).length, (restOf iax iav).get b ∉ iav :=
    fun b => (restOf_mem.mp ((restOf iax iav).get_mem b.1 b.2)).2
  have hmx : ∀ b : Fin (restOf iax iav).length, (restOf iax iav).get b ∈ iax :=
    fun b => (restOf_mem.mp ((restOf iax iav).get_mem b.1 b.2)).1
  have hvm : ∀ (D : Matrix (Fin iav.length) (Fin iav.length) ℚ),
      (sandwich iax iav iav F_v D s.P).submatrix iav.get (restOf iax iav).get =
        F_v * s.P.submatrix iav.get (restOf iax iav).get := by
    intro D
    ext a b
    show sandwich iax iav iav F_v D s.P (iav.get a) ((restOf iax iav).get b) = _
    rw [sandwich_apply_vm hv a (hmm b) (hmx b)]
    simp [Matrix.mul_apply, Matrix.submatrix_apply]
  refine ⟨?_, ?_, ?_, ?_, rfl, ?_⟩
  · ext a b
    show sandwich iax iav iav F_v (F_u * U * F_uᵀ) s.P (iav.get a) (iav.get b) = _
    rw [sandwich_apply_vv hv a b]
  · exact hvm (F_u * U * F_uᵀ)
  · show (sandwich iax iav iav F_v (F_u * U * F_uᵀ) s.P).submatrix
        (restOf iax iav).get iav.get =
      ((sandwich iax iav iav F_v (F_u * U * F_uᵀ) s.P).submatrix
        iav.get (restOf iax iav).get)ᵀ
    rw [hvm (F_u * U * F_uᵀ)]
    ext b a
    show sandwich iax iav iav F_v (F_u * U * F_uᵀ) s.P
        ((restOf iax iav).get b) (iav.get a) = _
    rw [sandwich_apply_mv hv a (hmm b) (hmx b)]
    simp only [Matrix.transpose_apply, Matrix.mul_apply, Matrix.submatrix_apply, id]
    refine Finset.sum_congr rfl (fun c _ => ?_)
    rw [hP.apply (iav.get c) ((restOf iax iav).get b)]
    ring
  · ext a b
    show sandwich iax iav iav F_v (F_u * U * F_uᵀ) s.P
        ((restOf iax iav).get a) ((restOf iax iav).get b) = _
    rw [sandwich_apply_mm (hmm a) (hmm b)]
    rfl
  · ext a b
    show sandwich iax iav iav F_v Q s.P (iav.get a) (iav.get b) = _
    rw [sandwich_apply_vv hv a b]

/-- Concrete run of the C2 theorem (2-state filter, 1-state process block):
the control-space form coincides with the state-space form at `F_u·U·F_uᵗ`. -/
theorem predict_blocks_witness :
    (predictU [0, 1] [0] !![2] 1 !![1] !![1] (⟨fun _ => 0, 1⟩ : Filt 2)) =
      predictQ [0, 1] [0] !![2] (!![1] * !![1] * !![1]ᵀ) (⟨fun _ => 0, 1⟩ : Filt 2) :=
  (predict_blocks [0, 1] [0] !![2] 1 !![1] !![1] 0 (⟨fun _ => 0, 1⟩ : Filt 2)
    (by decide) (by decide) Matrix.isSymm_one).2.2.2.2.1

/-- C6: neither form of `predict` modifies the mean vector — in particular not
`x[iav]` — the filter dimension is fixed by the type `Filt n` (no resize), and
only covariance entries inside the used block `iax` are mutated. -/
theorem predict_frame {n : ℕ} (iax iav : List (Fin n))
    (F_v : Matrix (Fin iav.length) (Fin iav.length) ℚ) (usize : ℕ)
    (F_u : Matrix (Fin iav.length) (Fin usize) ℚ)
    (U : Matrix (Fin usize) (Fin usize) ℚ)
    (Q : Matrix (Fin iav.length) (Fin iav.length) ℚ) (s : Filt n) :
    (predictU iax iav F_v usize F_u U s).x = s.x ∧
    (predictQ iax iav F_v Q s).x = s.x ∧
    (iav ⊆ iax → ∀ i j : Fin n, i ∉ iax ∨ j ∉ iax →
      (predictU iax iav F_v usize F_u U s).P i j = s.P i j ∧
      (predictQ iax iav F_v Q s).P i j = s.P i j) := by
  refine ⟨rfl, rfl, ?_⟩
  intro hsub i j hij
  have hgen : ∀ D : Matrix (Fin iav.length) (Fin iav.length) ℚ,
      sandwich iax iav iav F_v D s.P i j = s.P i j := by
    intro D
    unfold sandwich
    rcases hpi : posIn iav i with - | a <;> rcases hpj : posIn iav j with - | b <;>
      simp only [hpi, hpj]
    · have hjx : j ∈ iax := hsub (mem_of_posIn_eq_some hpj)
      have hix : i ∉ iax := hij.resolve_right (fun hc => hc hjx)
      rw [if_neg hix]
    · have hix : i ∈ iax := hsub (mem_of_posIn_eq_some hpi)
      have hjx : j ∉ iax := hij.resolve_left (fun hc => hc hix)
      rw [if_neg hjx]
    · exact absurd (hsub (mem_of_posIn_eq_some hpi))
        (hij.resolve_right (fun hc => hc (hsub (mem_of_posIn_eq_some hpj))))
  exact ⟨hgen (F_u * U * F_uᵀ), hgen Q⟩

/-- Concrete run of the C6 theorem: predicting over state 0 of a 2-state
filter leaves the mean and the covariance entry at (1,1) untouched. -/
theorem predict_frame_witness :
    (predictU [0] [0] !![2] 1 !![1] !![1] (⟨fun _ => 0, 1⟩ : Filt 2)).x =
      (⟨fun _ => 0, 1⟩ : Filt 2).x ∧
    (predictU [0] [0] !![2] 1 !![1] !![1] (⟨fun _ => 0, 1⟩ : Filt 2)).P 1 1 =
      (⟨fun _ => 0, 1⟩ : Filt 2).P 1 1 :=
  ⟨(predict_frame [0] [0] !![2] 1 !![1] !![1] 0 (⟨fun _ => 0, 1⟩ : Filt 2)).1,
   ((predict_frame [0] [0] !![2] 1 !![1] !![1] 0 (⟨fun _ => 0, 1⟩ : Filt 2)).2.2
      (by decide) 1 1 (Or.inl (by decide))).1⟩

/-- C1: a `correct` call with a well-shaped innovation, `ia_rsl ⊆ iax` and an
invertible `Z` succeeds and computes the gain
`K = -S·INN_rslᵗ·inverse(Z)` with `S = covAt(iax, ia_rsl)`, updates the mean
as `x[iax] += K·z` (other entries untouched), and updates the covariance as
`P[iax,iax] += K·INN_rsl·P[ia_rsl,iax]` (other entries untouched) — which,
with the positive textbook gain `K⁺ = S·INN_rslᵗ·Z⁻¹ = -K` of the stated sign
convention, is exactly `P ← P − K⁺·INN_rsl·P[ia_rsl,iax]`.  (For symmetric `P`
and `Z` the update is already symmetric, so the final symmetrization changes
nothing.) -/
theorem correct_spec {n : ℕ} (iax : List (Fin n)) (inn : Innovation n) (s : Filt n)
    (hx : iax.Nodup) (hr : inn.ia_rsl.Nodup) (hsub : inn.ia_rsl ⊆ iax)
    (hdet : inn.Z.det ≠ 0) (hZs : inn.Z.IsSymm) (hP : s.P.IsSymm) :
    ∃ s', correct iax inn s = .ok s' ∧
      computeK iax s.P inn =
        -(s.P.submatrix iax.get inn.ia_rsl.get) * inn.INN_rslᵀ * inn.Z⁻¹ ∧
      (∀ a : Fin iax.length, s'.x (iax.get a) =
        s.x (iax.get a) + (computeK iax s.P inn *ᵥ inn.z) a) ∧
      (∀ i, i ∉ iax → s'.x i = s.x i) ∧
      (s'.P.submatrix iax.get iax.get = s.P.submatrix iax.get iax.get +
        computeK iax s.P inn * inn.INN_rsl * s.P.submatrix inn.ia_rsl.get iax.get) ∧
      (∀ i j : Fin n, i ∉ iax ∨ j ∉ iax → s'.P i j = s.P i j) ∧
      (s'.P.submatrix iax.get iax.get = s.P.submatrix iax.get iax.get -
        (s.P.submatrix iax.get inn.ia_rsl.get * inn.INN_rslᵀ * inn.Z⁻¹) *
          inn.INN_rsl * s.P.submatrix inn.ia_rsl.get iax.get) := by
  rcases hok : correct iax inn s with e | s'
  · exact absurd (correct_error_iff.mp ⟨e, hok⟩) hdet
  obtain ⟨hPeq, hxeq⟩ := correct_ok_inv hok
  have hPP : s'.P = updateP iax inn s.P := by
    rw [hPeq, symmetrize_of_isSymm (updateP_isSymm hP hZs)]
  have hgain : computeK iax s.P inn =
      -(s.P.submatrix iax.get inn.ia_rsl.get) * inn.INN_rslᵀ * inn.Z⁻¹ := by
    unfold computeK
    rw [matInv_eq_inv]
  have hsubm : s'.P.submatrix iax.get iax.get =
      s.P.submatrix iax.get iax.get + computeK iax s.P inn * inn.INN_rsl *
        s.P.submatrix inn.ia_rsl.get iax.get := by
    ext a b
    show s'.P (iax.get a) (iax.get b) = _
    rw [hPP]
    unfold updateP
    rw [posIn_get hx a, posIn_get hx b]
    rfl
  refine ⟨s', rfl, hgain, ?_, ?_, hsubm, ?_, ?_⟩
  · intro a
    rw [hxeq]
    simp only [posIn_get hx]
  · intro i hi
    rw [hxeq]
    simp only [posIn_eq_none hi]
  · intro i j hij
    rw [hPP]
    unfold updateP
    rcases hpi : posIn iax i with - | a <;> rcases hpj : posIn iax j with - | b <;>
      simp only [hpi, hpj]
    exact absurd (mem_of_posIn_eq_some hpi)
      (hij.resolve_right (fun hc => hc (mem_of_posIn_eq_some hpj)))
  · rw [hsubm, hgain]
    rw [sub_eq_add_neg]
    congr 1
    simp only [Matrix.neg_mul]

/-- Concrete run of the C1 theorem on a 1-state filter with a scalar
innovation of covariance 2. -/
theorem correct_spec_witness :
    ∃ s', correct [0] (⟨1, fun _ => 1, !![2], [0], !![1]⟩ : Innovation 1)
        (⟨fun _ => 0, 1⟩ : Filt 1) = .ok s' :=
  (correct_spec [0] (⟨1, fun _ => 1, !![2], [0], !![1]⟩ : Innovation 1)
      (⟨fun _ => 0, 1⟩ : Filt 1) (by decide) (by decide) (by decide)
      (by norm_num [Matrix.det_fin_one_of])
      (by ext i j; fin_cases i; fin_cases j; rfl)
      Matrix.isSymm_one).imp
    (fun s' h => h.1)

/-- Concrete counterexample state for the stacked-vs-sequential property: a
2-state filter whose two components are correlated (cross-covariance 1/2). -/
def cexS : Filt 2 := ⟨fun _ => 0, !![1, 1/2; 1/2, 1]⟩

/-- First concrete innovation: scalar observation of state 0, `Z = 2`. -/
def cexI1 : Innovation 2 := ⟨1, fun _ => 1, !![2], [0], !![1]⟩

/-- Second concrete innovation: scalar observation of state 1, `Z = 2`. -/
def cexI2 : Innovation 2 := ⟨1, fun _ => 1, !![2], [1], !![1]⟩

/-- Covariance after the first sequential correction. -/
def cexP1 : Matrix (Fin 2) (Fin 2) ℚ := !![1/2, 1/4; 1/4, 7/8]

/-- Covariance after both sequential corrections. -/
def cexP2 : Matrix (Fin 2) (Fin 2) ℚ := !![15/32, 9/64; 9/64, 63/128]

/-- Covariance after the one stacked correction. -/
def cexPb : Matrix (Fin 2) (Fin 2) ℚ := !![3/8, 0; 0, 3/8]

lemma cexHp0 : posIn ([0, 1] : List (Fin 2)) (0 : Fin 2) =
    some (⟨0, by norm_num⟩ : Fin (([0, 1] : List (Fin 2)).length)) := by decide

lemma cexHp1 : posIn ([0, 1] : List (Fin 2)) (1 : Fin 2) =
    some (⟨1, by norm_num⟩ : Fin (([0, 1] : List (Fin 2)).length)) := by decide

lemma cexZinv1 : matInv (!![2] : Matrix (Fin 1) (Fin 1) ℚ) = !![1/2] := by
  ext a b
  fin_cases a
  fin_cases b
  simp [matInv, Matrix.det_fin_one_of, Matrix.adjugate_fin_one]

lemma cexK1 : computeK [0, 1] cexS.P cexI1 * cexI1.INN_rsl *
    cexS.P.submatrix cexI1.ia_rsl.get ([0, 1] : List (Fin 2)).get =
    !![-1/2, -1/4; -1/4, -1/8] := by
  ext a b
  fin_cases a <;> fin_cases b <;>
    simp [computeK, cexI1, cexS, cexZinv1, Matrix.mul_apply, Fin.sum_univ_succ] <;>
    norm_num

lemma cexU1 : updateP [0, 1] cexI1 cexS.P = cexP1 := by
  ext i j
  fin_cases i <;> fin_cases j <;>
    (simp [updateP, cexHp0, cexHp1]
     rw [cexK1]
     simp [cexS, cexP1]
     try norm_num)

lemma cexSym1 : symmetrize cexP1 = cexP1 := by
  ext i j
  simp only [symmetrize, Matrix.smul_apply, Matrix.add_apply, Matrix.transpose_apply]
  fin_cases i <;> fin_cases j <;> simp [cexP1] <;> norm_num

lemma cexK2 : computeK [0, 1] cexP1 cexI2 * cexI2.INN_rsl *
    cexP1.submatrix cexI2.ia_rsl.get ([0, 1] : List (Fin 2)).get =
    !![-1/32, -7/64; -7/64, -49/128] := by
  ext a b
  fin_cases a <;> fin_cases b <;>
    simp [computeK, cexI2, cexP1, cexZinv1, Matrix.mul_apply, Fin.sum_univ_succ] <;>
    norm_num

lemma cexU2 : updateP [0, 1] cexI2 cexP1 = cexP2 := by
  ext i j
  fin_cases i <;> fin_cases j <;>
    (simp [updateP, cexHp0, cexHp1]
     rw [cexK2]
     simp [cexP1, cexP2]
     try norm_num)

lemma cexSym2 : symmetrize cexP2 = cexP2 := by
  ext i j
  simp only [symmetrize, Matrix.smul_apply, Matrix.add_apply, Matrix.transpose_apply]
  fin_cases i <;> fin_cases j <;> simp [cexP2] <;> norm_num

lemma cexZc : (combineInn cexI1 cexI2).Z = (!![2, 0; 0, 2] :
    Matrix (Fin 2) (Fin 2) ℚ) := by
  ext r c
  fin_cases r <;> fin_cases c <;>
    simp [combineInn, cexI1, cexI2, finSumFinEquiv, Fin.addCases]

lemma cexZinvc : matInv (!![2, 0; 0, 2] : Matrix (Fin 2) (Fin 2) ℚ) =
    !![1/2, 0; 0, 1/2] := by
  ext a b
  fin_cases a <;> fin_cases b <;>
    simp [matInv, Matrix.det_fin_two, Matrix.adjugate_fin_two] <;> norm_num

lemma cexKc : computeK [0, 1] cexS.P (combineInn cexI1 cexI2) *
    (combineInn cexI1 cexI2).INN_rsl *
    cexS.P.submatrix (combineInn cexI1 cexI2).ia_rsl.get
      ([0, 1] : List (Fin 2)).get =
    !![-5/8, -1/2; -1/2, -5/8] := by
  ext a b
  fin_cases a <;> fin_cases b <;>
    (simp only [computeK, cexZc, cexZinvc]
     simp [combineInn, cexI1, cexI2, cexS, finSumFinEquiv, Fin.addCases, posIn,
       Matrix.mul_apply, Fin.sum_univ_succ, List.indexOf, List.findIdx,
       List.findIdx.go]
     norm_num)

lemma cexUc : updateP [0, 1] (combineInn cexI1 cexI2) cexS.P = cexPb := by
  ext i j
  fin_cases i <;> fin_cases j <;>
    (simp [updateP, cexHp0, cexHp1]
     rw [cexKc]
     simp [cexS, cexPb]
     try norm_num)

lemma cexSymb : symmetrize cexPb = cexPb := by
  ext i j
  simp only [symmetrize, Matrix.smul_apply, Matrix.add_apply, Matrix.transpose_apply]
  fin_cases i <;> fin_cases j <;> simp [cexPb] <;> norm_num

lemma cexDet1 : cexI1.Z.det ≠ 0 := by
  simp [cexI1, Matrix.det_fin_one_of]

lemma cexDet2 : cexI2.Z.det ≠ 0 := by
  simp [cexI2, Matrix.det_fin_one_of]

lemma cexDetc : (combineInn cexI1 cexI2).Z.det ≠ 0 := by
  rw [cexZc, Matrix.det_fin_two]
  norm_num

/-- C5 counterexample: for the correlated 2-state filter `cexS` and the two
independent scalar innovations `cexI1`, `cexI2` over the disjoint index sets
`[0]` and `[1]`, two sequential `correct` calls and one `correctAllStacked`
of the two stacked innovations both succeed but produce different
covariances (sequential `P 0 1 = 9/64`, stacked `P 0 1 = 0`), so the claimed
equivalence fails as stated: disjointness alone does not make stacked and
sequential correction agree when the two contributing blocks are correlated. -/
theorem stacked_vs_sequential_cex :
    ¬ ((correct [0, 1] cexI1 cexS).bind (fun s1 => correct [0, 1] cexI2 s1) =
       (correctAllStacked [0, 1]
          (stackCorrection cexI2 (stackCorrection cexI1 [])) cexS).map
         (fun p => p.1)) := by
  intro h
  rcases hok1 : correct [0, 1] cexI1 cexS with e | s1
  · exact cexDet1 (correct_error_iff.mp ⟨e, hok1⟩)
  have hs1P : s1.P = cexP1 := by
    rw [(correct_ok_inv hok1).1, cexU1, cexSym1]
  rcases hok2 : correct [0, 1] cexI2 s1 with e | s2
  · exact cexDet2 (correct_error_iff.mp ⟨e, hok2⟩)
  have hs2P : s2.P = cexP2 := by
    have h2 := (correct_ok_inv hok2).1
    rw [hs1P, cexU2, cexSym2] at h2
    exact h2
  rcases hokc : correct [0, 1] (combineInn cexI1 cexI2) cexS with e | sb
  · exact cexDetc (correct_error_iff.mp ⟨e, hokc⟩)
  have hsbP : sb.P = cexPb := by
    rw [(correct_ok_inv hokc).1, cexUc, cexSymb]
  have hstack : correctAllStacked [0, 1]
      (stackCorrection cexI2 (stackCorrection cexI1 [])) cexS =
      (correct [0, 1] (combineInn cexI1 cexI2) cexS).map (fun s' => (s', [])) := rfl
  rw [hok1, hstack, hokc] at h
  simp only [Except.bind, Except.map] at h
  rw [hok2] at h
  injection h with h2
  have : s2.P 0 1 = sb.P 0 1 := by rw [h2]
  rw [hs2P, hsbP] at this
  have h9 : (9 / 64 : ℚ) = 0 := by
    have e1 : cexP2 0 1 = 9 / 64 := by simp [cexP2]
    have e2 : cexPb 0 1 = 0 := by simp [cexPb]
    rw [e1, e2] at this
    exact this
  norm_num at h9

lemma posIn_eq_none_iff {n : ℕ} {ia : List (Fin n)} {i : Fin n} :
    posIn ia i = none ↔ i ∉ ia := by
  constructor
  · intro h hm
    rw [posIn, dif_pos hm] at h
    cases h
  · exact posIn_eq_none

/-- The 0/1 selection matrix of an indirect array: column `a` is the indicator
vector of the `a`-th selected index. -/
def emb {n : ℕ} (ia : List (Fin n)) : Matrix (Fin n) (Fin ia.length) ℚ :=
  fun i a => if ia.get a = i then 1 else 0

/-- The 0/1 diagonal projection onto the selected indices. -/
def proj {n : ℕ} (ia : List (Fin n)) : Matrix (Fin n) (Fin n) ℚ :=
  emb ia * (emb ia)ᵀ

lemma transpose_emb_mul {n m : ℕ} (ia : List (Fin n))
    (M : Matrix (Fin n) (Fin m) ℚ) :
    (emb ia)ᵀ * M = M.submatrix ia.get id := by
  ext a j
  simp [emb, Matrix.mul_apply, Matrix.transpose_apply, Matrix.submatrix_apply,
    ite_mul, zero_mul, one_mul]

lemma mul_emb {n m : ℕ} (ia : List (Fin n)) (M : Matrix (Fin m) (Fin n) ℚ) :
    M * emb ia = M.submatrix id ia.get := by
  ext r a
  simp [emb, Matrix.mul_apply, Matrix.submatrix_apply, mul_ite, mul_zero, mul_one]

lemma submatrix_eq_emb {n : ℕ} (P : Matrix (Fin n) (Fin n) ℚ)
    (ia ib : List (Fin n)) :
    P.submatrix ia.get ib.get = (emb ia)ᵀ * P * emb ib := by
  rw [transpose_emb_mul, mul_emb, Matrix.submatrix_submatrix]
  rfl

lemma emb_mul_apply {n m : ℕ} {ia : List (Fin n)} (h : ia.Nodup)
    (M : Matrix (Fin ia.length) (Fin m) ℚ) (i : Fin n) (c : Fin m) :
    (emb ia * M) i c =
      match posIn ia i with
      | some a => M a c
      | none => 0 := by
  rcases hpi : posIn ia i with - | a0 <;> simp only [hpi]
  · have hmem : i ∉ ia := posIn_eq_none_iff.mp hpi
    rw [Matrix.mul_apply]
    refine Finset.sum_eq_zero (fun b _ => ?_)
    have hne : ia.get b ≠ i := fun hc => hmem (hc ▸ ia.get_mem b.1 b.2)
    show (if ia.get b = i then (1 : ℚ) else 0) * M b c = 0
    rw [if_neg hne, zero_mul]
  · have hget : ia.get a0 = i := posIn_eq_some hpi
    rw [Matrix.mul_apply, Finset.sum_eq_single a0]
    · show (if ia.get a0 = i then (1 : ℚ) else 0) * M a0 c = M a0 c
      rw [if_pos hget, one_mul]
    · intro b _ hb
      have hne : ia.get b ≠ i := by
        intro hc
        exact hb (h.get_inj_iff.mp (hc.trans hget.symm))
      show (if ia.get b = i then (1 : ℚ) else 0) * M b c = 0
      rw [if_neg hne, zero_mul]
    · intro hmem
      exact absurd (Finset.mem_univ a0) hmem

lemma mul_transpose_emb_apply {n m : ℕ} {ia : List (Fin n)} (h : ia.Nodup)
    (M : Matrix (Fin m) (Fin ia.length) ℚ) (r : Fin m) (j : Fin n) :
    (M * (emb ia)ᵀ) r j =
      match posIn ia j with
      | some a => M r a
      | none => 0 := by
  have htr : (M * (emb ia)ᵀ)ᵀ = emb ia * Mᵀ := by
    rw [Matrix.transpose_mul, Matrix.transpose_transpose]
  have step : (M * (emb ia)ᵀ) r j = (emb ia * Mᵀ) j r := by
    rw [← htr]
    rfl
  rw [step, emb_mul_apply h]
  rcases hpj : posIn ia j with - | a <;> simp only [hpj]
  rfl

lemma proj_mul_emb {n : ℕ} {iax ib : List (Fin n)} (hx : iax.Nodup)
    (hsub : ib ⊆ iax) : proj iax * emb ib = emb ib := by
  unfold proj
  rw [Matrix.mul_assoc, transpose_emb_mul]
  ext i b
  rw [emb_mul_apply hx]
  rcases hpi : posIn iax i with - | a <;> simp only [hpi]
  · have hmem : i ∉ iax := posIn_eq_none_iff.mp hpi
    have hne : ib.get b ≠ i := fun hc => hmem (hc ▸ hsub (ib.get_mem b.1 b.2))
    exact (if_neg hne).symm
  · have hget : iax.get a = i := posIn_eq_some hpi
    show emb ib (iax.get a) b = emb ib i b
    rw [hget]

lemma emb_transpose_mul_proj {n : ℕ} {iax ib : List (Fin n)} (hx : iax.Nodup)
    (hsub : ib ⊆ iax) : (emb ib)ᵀ * proj iax = (emb ib)ᵀ := by
  have h := congrArg Matrix.transpose (proj_mul_emb hx hsub)
  rw [Matrix.transpose_mul] at h
  have hq : (proj iax)ᵀ = proj iax := by
    unfold proj
    rw [Matrix.transpose_mul, Matrix.transpose_transpose]
  rw [hq] at h
  exact h

lemma proj_sandwich_apply {n : ℕ} {ia : List (Fin n)} (h : ia.Nodup)
    (A : Matrix (Fin n) (Fin n) ℚ) (i j : Fin n) :
    (proj ia * A * proj ia) i j = if i ∈ ia ∧ j ∈ ia then A i j else 0 := by
  have h1 : proj ia * A * proj ia =
      (emb ia * (((emb ia)ᵀ * A) * emb ia)) * (emb ia)ᵀ := by
    unfold proj
    simp only [Matrix.mul_assoc]
  rw [h1, mul_transpose_emb_apply h]
  rcases hpj : posIn ia j with - | b <;> simp only [hpj]
  · have hj : j ∉ ia := posIn_eq_none_iff.mp hpj
    rw [if_neg (fun hc => hj hc.2)]
  · rw [emb_mul_apply h]
    rcases hpi : posIn ia i with - | a <;> simp only [hpi]
    · have hi : i ∉ ia := posIn_eq_none_iff.mp hpi
      rw [if_neg (fun hc => hi hc.1)]
    · have hgi : ia.get a = i := posIn_eq_some hpi
      have hgj : ia.get b = j := posIn_eq_some hpj
      have hmi : i ∈ ia := mem_of_posIn_eq_some hpi
      have hmj : j ∈ ia := mem_of_posIn_eq_some hpj
      rw [mul_emb, transpose_emb_mul]
      show A (ia.get a) (ia.get b) = _
      rw [hgi, hgj, if_pos ⟨hmi, hmj⟩]

/-- `computeK` is the `iax`-rows restriction of the full-state gain
`-(P·E_r·INN_rslᵗ·inverse(Z))`. -/
lemma computeK_eq_emb {n : ℕ} (iax : List (Fin n)) (P : Matrix (Fin n) (Fin n) ℚ)
    (inn : Innovation n) :
    computeK iax P inn = (emb iax)ᵀ *
      (-(P * emb inn.ia_rsl * inn.INN_rslᵀ * matInv inn.Z)) := by
  unfold computeK
  rw [submatrix_eq_emb]
  simp only [Matrix.neg_mul, Matrix.mul_neg, Matrix.mul_assoc]

/-- Matrix form of a successful correction: with `Q = proj iax` and the
full-state gain `Kext = -(P·E_r·INN_rslᵗ·inverse(Z))`, the update is
`x += (Q·Kext)·z` and `P += Q·(Kext·INN_rsl·(E_rᵗ·P))·Q`; for symmetric `P`
and `Z` the trailing symmetrization is the identity. -/
lemma correct_ok_rep {n : ℕ} {iax : List (Fin n)} {inn : Innovation n}
    {s s' : Filt n} (hx : iax.Nodup) (hZs : inn.Z.IsSymm) (hP : s.P.IsSymm)
    (hok : correct iax inn s = .ok s') :
    s'.x = s.x + (proj iax *
        (-(s.P * emb inn.ia_rsl * inn.INN_rslᵀ * matInv inn.Z))) *ᵥ inn.z ∧
    s'.P = s.P + proj iax *
        (-(s.P * emb inn.ia_rsl * inn.INN_rslᵀ * matInv inn.Z) * inn.INN_rsl *
          ((emb inn.ia_rsl)ᵀ * s.P)) * proj iax := by
  obtain ⟨hPeq, hxeq⟩ := correct_ok_inv hok
  constructor
  · rw [hxeq]
    funext i
    have hQK : proj iax *
        (-(s.P * emb inn.ia_rsl * inn.INN_rslᵀ * matInv inn.Z)) =
        emb iax * computeK iax s.P inn := by
      rw [computeK_eq_emb]
      unfold proj
      rw [Matrix.mul_assoc]
    rw [Pi.add_apply, hQK]
    rcases hpi : posIn iax i with - | a <;> simp only [hpi]
    · have hz : ∀ c, (emb iax * computeK iax s.P inn) i c = 0 := fun c => by
        rw [emb_mul_apply hx, hpi]
      simp [Matrix.mulVec, dotProduct, hz]
    · have hz : ∀ c, (emb iax * computeK iax s.P inn) i c =
          computeK iax s.P inn a c := fun c => by
        rw [emb_mul_apply hx, hpi]
      simp [Matrix.mulVec, dotProduct, hz]
  · rw [hPeq, symmetrize_of_isSymm (updateP_isSymm hP hZs)]
    have hblock : computeK iax s.P inn * inn.INN_rsl *
        s.P.submatrix inn.ia_rsl.get iax.get =
        (emb iax)ᵀ * (-(s.P * emb inn.ia_rsl * inn.INN_rslᵀ * matInv inn.Z) *
          inn.INN_rsl * ((emb inn.ia_rsl)ᵀ * s.P)) * emb iax := by
      rw [computeK_eq_emb, submatrix_eq_emb]
      simp only [Matrix.neg_mul, Matrix.mul_neg, Matrix.mul_assoc]
    ext i j
    rw [Matrix.add_apply, proj_sandwich_apply hx]
    unfold updateP
    rcases hpi : posIn iax i with - | a <;> rcases hpj : posIn iax j with - | b <;>
      simp only [hpi, hpj]
    · rw [if_neg (fun hc => (posIn_eq_none_iff.mp hpi) hc.1), add_zero]
    · rw [if_neg (fun hc => (posIn_eq_none_iff.mp hpi) hc.1), add_zero]
    · rw [if_neg (fun hc => (posIn_eq_none_iff.mp hpj) hc.2), add_zero]
    · rw [hblock]
      have hgi : iax.get a = i := posIn_eq_some hpi
      have hgj : iax.get b = j := posIn_eq_some hpj
      have hmi : i ∈ iax := mem_of_posIn_eq_some hpi
      have hmj : j ∈ iax := mem_of_posIn_eq_some hpj
      have hentry : ((emb iax)ᵀ *
          (-(s.P * emb inn.ia_rsl * inn.INN_rslᵀ * matInv inn.Z) *
            inn.INN_rsl * ((emb inn.ia_rsl)ᵀ * s.P)) * emb iax) a b =
          (-(s.P * emb inn.ia_rsl * inn.INN_rslᵀ * matInv inn.Z) *
            inn.INN_rsl * ((emb inn.ia_rsl)ᵀ * s.P)) (iax.get a) (iax.get b) := by
        rw [mul_emb, transpose_emb_mul]
        rfl
      rw [hentry, hgi, hgj, if_pos ⟨hmi, hmj⟩]

/-- The stacked innovation in the special case of disjoint contributing index
sets, where the union of the `ia_rsl` sets is the plain append. -/
def appendInn {n : ℕ} (i1 i2 : Innovation n) : Innovation n where
  isize := i1.isize + i2.isize
  z := fun r => Sum.elim i1.z i2.z (finSumFinEquiv.symm r)
  Z := fun r c =>
    Matrix.fromBlocks i1.Z 0 0 i2.Z (finSumFinEquiv.symm r) (finSumFinEquiv.symm c)
  ia_rsl := i1.ia_rsl ++ i2.ia_rsl
  INN_rsl := fun r c =>
    Sum.elim
      (fun r1 => match posIn i1.ia_rsl ((i1.ia_rsl ++ i2.ia_rsl).get c) with
        | some c1 => i1.INN_rsl r1 c1
        | none => 0)
      (fun r2 => match posIn i2.ia_rsl ((i1.ia_rsl ++ i2.ia_rsl).get c) with
        | some c2 => i2.INN_rsl r2 c2
        | none => 0)
      (finSumFinEquiv.symm r)

lemma combineInn_eq_appendInn {n : ℕ} {i1 i2 : Innovation n}
    (hd : ∀ j ∈ i2.ia_rsl, j ∉ i1.ia_rsl) :
    combineInn i1 i2 = appendInn i1 i2 := by
  have hf : i2.ia_rsl.filter (fun j => decide (j ∉ i1.ia_rsl)) = i2.ia_rsl :=
    List.filter_eq_self.mpr (fun a ha => by simpa using hd a ha)
  unfold combineInn appendInn
  rw [hf]

/-- Column reindexing between the appended index list and the sum type. -/
def ecol {n : ℕ} (i1 i2 : Innovation n) :
    Fin ((appendInn i1 i2).ia_rsl.length) ≃
      (Fin i1.ia_rsl.length ⊕ Fin i2.ia_rsl.length) :=
  (finCongr (show (appendInn i1 i2).ia_rsl.length =
      i1.ia_rsl.length + i2.ia_rsl.length from
    List.length_append i1.ia_rsl i2.ia_rsl)).trans finSumFinEquiv.symm

/-- Row reindexing between the stacked innovation size and the sum type. -/
def esz {n : ℕ} (i1 i2 : Innovation n) :
    Fin ((appendInn i1 i2).isize) ≃ (Fin i1.isize ⊕ Fin i2.isize) :=
  finSumFinEquiv.symm

lemma ecol_inl_get {n : ℕ} {i1 i2 : Innovation n}
    {c : Fin ((appendInn i1 i2).ia_rsl.length)} {a : Fin i1.ia_rsl.length}
    (h : ecol i1 i2 c = Sum.inl a) :
    (appendInn i1 i2).ia_rsl.get c = i1.ia_rsl.get a := by
  have h2 : finCongr (List.length_append i1.ia_rsl i2.ia_rsl) c =
      Fin.castAdd i2.ia_rsl.length a := by
    have h3 := congrArg (⇑finSumFinEquiv) h
    simpa [ecol, Equiv.trans_apply, Equiv.apply_symm_apply,
      finSumFinEquiv_apply_left] using h3
  have hval : (c : ℕ) = (a : ℕ) := by
    have h4 := congrArg Fin.val h2
    simpa using h4
  have hlt : (c : ℕ) < i1.ia_rsl.length := hval ▸ a.isLt
  have ha : a = ⟨(c : ℕ), hlt⟩ := Fin.ext hval.symm
  rw [ha, List.get_eq_getElem, List.get_eq_getElem]
  exact List.getElem_append_left hlt

lemma ecol_inr_get {n : ℕ} {i1 i2 : Innovation n}
    {c : Fin ((appendInn i1 i2).ia_rsl.length)} {b : Fin i2.ia_rsl.length}
    (h : ecol i1 i2 c = Sum.inr b) :
    (appendInn i1 i2).ia_rsl.get c = i2.ia_rsl.get b := by
  have h2 : finCongr (List.length_append i1.ia_rsl i2.ia_rsl) c =
      Fin.natAdd i1.ia_rsl.length b := by
    have h3 := congrArg (⇑finSumFinEquiv) h
    simpa [ecol, Equiv.trans_apply, Equiv.apply_symm_apply,
      finSumFinEquiv_apply_right] using h3
  have hval : (c : ℕ) = i1.ia_rsl.length + (b : ℕ) := by
    have h4 := congrArg Fin.val h2
    simpa using h4
  have hle : i1.ia_rsl.length ≤ (c : ℕ) := by omega
  have hsub : (c : ℕ) - i1.ia_rsl.length < i2.ia_rsl.length := by
    have := b.isLt
    omega
  have hb : b = ⟨(c : ℕ) - i1.ia_rsl.length, hsub⟩ := by
    apply Fin.ext
    show (b : ℕ) = (c : ℕ) - i1.ia_rsl.length
    omega
  rw [hb, List.get_eq_getElem, List.get_eq_getElem]
  exact List.getElem_append_right hle

lemma emb_append {n : ℕ} (i1 i2 : Innovation n) :
    emb (appendInn i1 i2).ia_rsl =
      (Matrix.fromColumns (emb i1.ia_rsl) (emb i2.ia_rsl)).submatrix id
        ⇑(ecol i1 i2) := by
  ext i c
  show (if (appendInn i1 i2).ia_rsl.get c = i then (1 : ℚ) else 0) = _
  rw [Matrix.submatrix_apply]
  rcases hc : ecol i1 i2 c with a | b
  · rw [ecol_inl_get hc]
    simp [Matrix.fromColumns, emb]
  · rw [ecol_inr_get hc]
    simp [Matrix.fromColumns, emb]

lemma appendInn_INN {n : ℕ} {i1 i2 : Innovation n} (h1 : i1.ia_rsl.Nodup)
    (h2 : i2.ia_rsl.Nodup) (hd : ∀ j ∈ i2.ia_rsl, j ∉ i1.ia_rsl) :
    (appendInn i1 i2).INN_rsl =
      (Matrix.fromBlocks i1.INN_rsl 0 0 i2.INN_rsl).submatrix
        ⇑(esz i1 i2) ⇑(ecol i1 i2) := by
  ext r c
  rw [Matrix.submatrix_apply]
  show Sum.elim _ _ (esz i1 i2 r) = _
  rcases hr : esz i1 i2 r with r1 | r2 <;>
    rcases hc : ecol i1 i2 c with a | b <;>
    simp only [hr, hc, Sum.elim_inl, Sum.elim_inr]
  · have hg : (i1.ia_rsl ++ i2.ia_rsl).get c = i1.ia_rsl.get a := ecol_inl_get hc
    rw [hg, posIn_get h1]
    simp [Matrix.fromBlocks]
  · have hg : (i1.ia_rsl ++ i2.ia_rsl).get c = i2.ia_rsl.get b := ecol_inr_get hc
    rw [hg, posIn_eq_none (hd (i2.ia_rsl.get b) (i2.ia_rsl.get_mem b.1 b.2))]
    simp [Matrix.fromBlocks]
  · have hnm : i1.ia_rsl.get a ∉ i2.ia_rsl :=
      fun hm => hd (i1.ia_rsl.get a) hm (i1.ia_rsl.get_mem a.1 a.2)
    have hg : (i1.ia_rsl ++ i2.ia_rsl).get c = i1.ia_rsl.get a := ecol_inl_get hc
    rw [hg, posIn_eq_none hnm]
    simp [Matrix.fromBlocks]
  · have hg : (i1.ia_rsl ++ i2.ia_rsl).get c = i2.ia_rsl.get b := ecol_inr_get hc
    rw [hg, posIn_get h2]
    simp [Matrix.fromBlocks]

lemma appendInn_Z_block {n : ℕ} (i1 i2 : Innovation n) :
    (appendInn i1 i2).Z =
      (Matrix.fromBlocks i1.Z 0 0 i2.Z).submatrix ⇑(esz i1 i2) ⇑(esz i1 i2) := rfl

lemma appendInn_Z_isSymm {n : ℕ} {i1 i2 : Innovation n}
    (hz1 : i1.Z.IsSymm) (hz2 : i2.Z.IsSymm) : (appendInn i1 i2).Z.IsSymm := by
  show _ᵀ = _
  rw [appendInn_Z_block, Matrix.transpose_submatrix, Matrix.fromBlocks_transpose,
    hz1.eq, hz2.eq]
  simp only [Matrix.transpose_zero]

lemma appendInn_Z_det {n : ℕ} (i1 i2 : Innovation n) :
    (appendInn i1 i2).Z.det = i1.Z.det * i2.Z.det := by
  rw [appendInn_Z_block, Matrix.det_submatrix_equiv_self,
    Matrix.det_fromBlocks_zero₂₁]

lemma mul_matInv_self {k : ℕ} {A : Matrix (Fin k) (Fin k) ℚ} (h : A.det ≠ 0) :
    A * matInv A = 1 := by
  rw [matInv_eq_inv]
  exact Matrix.mul_nonsing_inv A (isUnit_iff_ne_zero.mpr h)

lemma matInv_appendInn_Z {n : ℕ} {i1 i2 : Innovation n}
    (hz1 : i1.Z.det ≠ 0) (hz2 : i2.Z.det ≠ 0) :
    matInv (appendInn i1 i2).Z =
      (Matrix.fromBlocks (matInv i1.Z) 0 0 (matInv i2.Z)).submatrix
        ⇑(esz i1 i2) ⇑(esz i1 i2) := by
  rw [matInv_eq_inv]
  apply Matrix.inv_eq_right_inv
  rw [appendInn_Z_block, Matrix.submatrix_mul_equiv, Matrix.fromBlocks_multiply]
  simp only [Matrix.mul_zero, Matrix.zero_mul, add_zero, zero_add,
    mul_matInv_self hz1, mul_matInv_self hz2]
  rw [Matrix.fromBlocks_one]
  exact Matrix.submatrix_one_equiv _

lemma mul_submatrix_id_right {α β γ δ : Type} [Fintype β] (M : Matrix α β ℚ)
    (N : Matrix β γ ℚ) (f : δ → γ) :
    M * N.submatrix id f = (M * N).submatrix id f := by
  ext i j
  simp [Matrix.mul_apply, Matrix.submatrix_apply]

lemma appendInn_W {n : ℕ} {i1 i2 : Innovation n} (h1 : i1.ia_rsl.Nodup)
    (h2 : i2.ia_rsl.Nodup) (hd : ∀ j ∈ i2.ia_rsl, j ∉ i1.ia_rsl)
    (hz1 : i1.Z.det ≠ 0) (hz2 : i2.Z.det ≠ 0) :
    emb (appendInn i1 i2).ia_rsl * (appendInn i1 i2).INN_rslᵀ *
      matInv (appendInn i1 i2).Z =
    (Matrix.fromColumns (emb i1.ia_rsl * i1.INN_rslᵀ * matInv i1.Z)
        (emb i2.ia_rsl * i2.INN_rslᵀ * matInv i2.Z)).submatrix id
      ⇑(esz i1 i2) := by
  rw [emb_append, appendInn_INN h1 h2 hd, matInv_appendInn_Z hz1 hz2,
    Matrix.transpose_submatrix, Matrix.fromBlocks_transpose]
  simp only [Matrix.transpose_zero]
  rw [Matrix.submatrix_mul_equiv, Matrix.fromColumns_mul_fromBlocks,
    Matrix.submatrix_mul_equiv, Matrix.fromColumns_mul_fromBlocks]
  simp only [Matrix.mul_zero, Matrix.zero_mul, add_zero, zero_add]

lemma appendInn_HE {n : ℕ} {i1 i2 : Innovation n} (h1 : i1.ia_rsl.Nodup)
    (h2 : i2.ia_rsl.Nodup) (hd : ∀ j ∈ i2.ia_rsl, j ∉ i1.ia_rsl) :
    (appendInn i1 i2).INN_rsl * (emb (appendInn i1 i2).ia_rsl)ᵀ =
    (Matrix.fromRows (i1.INN_rsl * (emb i1.ia_rsl)ᵀ)
        (i2.INN_rsl * (emb i2.ia_rsl)ᵀ)).submatrix ⇑(esz i1 i2) id := by
  rw [emb_append, appendInn_INN h1 h2 hd, Matrix.transpose_submatrix,
    Matrix.transpose_fromColumns, Matrix.submatrix_mul_equiv,
    Matrix.fromBlocks_mul_fromRows]
  simp only [Matrix.mul_zero, Matrix.zero_mul, add_zero, zero_add]

lemma submatrix_mul_id_left {α β γ δ : Type} [Fintype β] (N : Matrix α β ℚ)
    (M : Matrix β γ ℚ) (f : δ → α) :
    N.submatrix f id * M = (N * M).submatrix f id := by
  ext i j
  simp [Matrix.mul_apply, Matrix.submatrix_apply]

lemma appendInn_z {n : ℕ} (i1 i2 : Innovation n) :
    (appendInn i1 i2).z ∘ ⇑(esz i1 i2).symm = Sum.elim i1.z i2.z := by
  funext r
  rcases r with r1 | r2 <;> simp [appendInn, esz]

/-- A successful correction whose contributing block is uncorrelated with the
columns selected by `ib ⊆ iax` leaves the `ib`-columns (and rows) of `P`
unchanged. -/
lemma correct_cross_invariant {n : ℕ} {iax ib : List (Fin n)}
    {inn : Innovation n} {s t : Filt n} (hx : iax.Nodup) (hZs : inn.Z.IsSymm)
    (hP : s.P.IsSymm) (hsubb : ∀ j ∈ ib, j ∈ iax)
    (hcr : s.P.submatrix inn.ia_rsl.get ib.get = 0)
    (hok : correct iax inn s = .ok t) :
    t.P * emb ib = s.P * emb ib ∧ (emb ib)ᵀ * t.P = (emb ib)ᵀ * s.P := by
  obtain ⟨-, hPr⟩ := correct_ok_rep hx hZs hP hok
  have hcrE : (emb inn.ia_rsl)ᵀ * s.P * emb ib = 0 := by
    rw [← submatrix_eq_emb]
    exact hcr
  have hcrR : (emb inn.ia_rsl)ᵀ * (s.P * emb ib) = 0 := by
    rw [← Matrix.mul_assoc]
    exact hcrE
  have hcrT : (emb ib)ᵀ * (s.P * emb inn.ia_rsl) = 0 := by
    have h3 := congrArg Matrix.transpose hcrE
    rwa [Matrix.transpose_zero, Matrix.transpose_mul, Matrix.transpose_mul,
      Matrix.transpose_transpose, hP.eq] at h3
  have hbQ : ∀ (Y : Matrix (Fin n) (Fin n) ℚ),
      (emb ib)ᵀ * (proj iax * Y) = (emb ib)ᵀ * Y := fun Y => by
    rw [← Matrix.mul_assoc, emb_transpose_mul_proj hx hsubb]
  have hzY : ∀ {γ : Type} (Y : Matrix (Fin inn.ia_rsl.length) γ ℚ),
      (emb ib)ᵀ * (s.P * (emb inn.ia_rsl * Y)) = 0 := by
    intro γ Y
    have h4 : (emb ib)ᵀ * (s.P * (emb inn.ia_rsl * Y)) =
        ((emb ib)ᵀ * (s.P * emb inn.ia_rsl)) * Y := by
      simp only [Matrix.mul_assoc]
    rw [h4, hcrT, Matrix.zero_mul]
  constructor
  · rw [hPr, Matrix.add_mul]
    have hterm : proj iax *
        (-(s.P * emb inn.ia_rsl * inn.INN_rslᵀ * matInv inn.Z) * inn.INN_rsl *
          ((emb inn.ia_rsl)ᵀ * s.P)) * proj iax * emb ib = 0 := by
      simp only [Matrix.mul_assoc, Matrix.neg_mul, Matrix.mul_neg]
      rw [proj_mul_emb hx hsubb, hcrR]
      simp only [Matrix.mul_zero, neg_zero]
    rw [hterm, add_zero]
  · rw [hPr, Matrix.mul_add]
    have hterm : (emb ib)ᵀ * (proj iax *
        (-(s.P * emb inn.ia_rsl * inn.INN_rslᵀ * matInv inn.Z) * inn.INN_rsl *
          ((emb inn.ia_rsl)ᵀ * s.P)) * proj iax) = 0 := by
      simp only [Matrix.mul_assoc, Matrix.neg_mul, Matrix.mul_neg]
      rw [hbQ, hzY, neg_zero]
    rw [hterm, add_zero]

/-- The full-state gain term of the stacked innovation splits into the two
individual gain terms applied to their own measurements. -/
lemma batch_x_red {n : ℕ} (iax : List (Fin n)) {i1 i2 : Innovation n}
    (P : Matrix (Fin n) (Fin n) ℚ)
    (h1 : i1.ia_rsl.Nodup) (h2 : i2.ia_rsl.Nodup)
    (hd : ∀ j ∈ i2.ia_rsl, j ∉ i1.ia_rsl)
    (hz1 : i1.Z.det ≠ 0) (hz2 : i2.Z.det ≠ 0) :
    (proj iax * -(P * emb (appendInn i1 i2).ia_rsl * (appendInn i1 i2).INN_rslᵀ *
        matInv (appendInn i1 i2).Z)) *ᵥ (appendInn i1 i2).z =
    (proj iax * -(P * emb i1.ia_rsl * i1.INN_rslᵀ * matInv i1.Z)) *ᵥ i1.z +
    (proj iax * -(P * emb i2.ia_rsl * i2.INN_rslᵀ * matInv i2.Z)) *ᵥ i2.z := by
  have hPA : P * emb (appendInn i1 i2).ia_rsl * (appendInn i1 i2).INN_rslᵀ *
      matInv (appendInn i1 i2).Z =
      (Matrix.fromColumns (P * (emb i1.ia_rsl * i1.INN_rslᵀ * matInv i1.Z))
        (P * (emb i2.ia_rsl * i2.INN_rslᵀ * matInv i2.Z))).submatrix id
        ⇑(esz i1 i2) := by
    have h0 : P * emb (appendInn i1 i2).ia_rsl * (appendInn i1 i2).INN_rslᵀ *
        matInv (appendInn i1 i2).Z =
        P * (emb (appendInn i1 i2).ia_rsl * (appendInn i1 i2).INN_rslᵀ *
          matInv (appendInn i1 i2).Z) := by
      simp only [Matrix.mul_assoc]
    rw [h0, appendInn_W h1 h2 hd hz1 hz2, mul_submatrix_id_right,
      Matrix.mul_fromColumns]
  rw [hPA, Matrix.mul_neg, Matrix.neg_mulVec, mul_submatrix_id_right,
    Matrix.mul_fromColumns, Matrix.submatrix_mulVec_equiv]
  simp only [Function.comp_id]
  rw [appendInn_z, Matrix.fromColumns_mulVec_sum_elim, neg_add,
    Matrix.mul_neg, Matrix.mul_neg, Matrix.neg_mulVec, Matrix.neg_mulVec]
  simp only [Matrix.mul_assoc]

/-- The covariance correction term of the stacked innovation splits into the
two individual correction terms. -/
lemma batch_P_red {n : ℕ} (iax : List (Fin n)) {i1 i2 : Innovation n}
    (P : Matrix (Fin n) (Fin n) ℚ)
    (h1 : i1.ia_rsl.Nodup) (h2 : i2.ia_rsl.Nodup)
    (hd : ∀ j ∈ i2.ia_rsl, j ∉ i1.ia_rsl)
    (hz1 : i1.Z.det ≠ 0) (hz2 : i2.Z.det ≠ 0) :
    proj iax * (-(P * emb (appendInn i1 i2).ia_rsl * (appendInn i1 i2).INN_rslᵀ *
        matInv (appendInn i1 i2).Z) * (appendInn i1 i2).INN_rsl *
        ((emb (appendInn i1 i2).ia_rsl)ᵀ * P)) * proj iax =
    proj iax * (-(P * emb i1.ia_rsl * i1.INN_rslᵀ * matInv i1.Z) * i1.INN_rsl *
        ((emb i1.ia_rsl)ᵀ * P)) * proj iax +
    proj iax * (-(P * emb i2.ia_rsl * i2.INN_rslᵀ * matInv i2.Z) * i2.INN_rsl *
        ((emb i2.ia_rsl)ᵀ * P)) * proj iax := by
  have hPA : P * emb (appendInn i1 i2).ia_rsl * (appendInn i1 i2).INN_rslᵀ *
      matInv (appendInn i1 i2).Z =
      (Matrix.fromColumns (P * (emb i1.ia_rsl * i1.INN_rslᵀ * matInv i1.Z))
        (P * (emb i2.ia_rsl * i2.INN_rslᵀ * matInv i2.Z))).submatrix id
        ⇑(esz i1 i2) := by
    have h0 : P * emb (appendInn i1 i2).ia_rsl * (appendInn i1 i2).INN_rslᵀ *
        matInv (appendInn i1 i2).Z =
        P * (emb (appendInn i1 i2).ia_rsl * (appendInn i1 i2).INN_rslᵀ *
          matInv (appendInn i1 i2).Z) := by
      simp only [Matrix.mul_assoc]
    rw [h0, appendInn_W h1 h2 hd hz1 hz2, mul_submatrix_id_right,
      Matrix.mul_fromColumns]
  have hHE : (appendInn i1 i2).INN_rsl * ((emb (appendInn i1 i2).ia_rsl)ᵀ * P) =
      (Matrix.fromRows (i1.INN_rsl * (emb i1.ia_rsl)ᵀ * P)
        (i2.INN_rsl * (emb i2.ia_rsl)ᵀ * P)).submatrix ⇑(esz i1 i2) id := by
    rw [← Matrix.mul_assoc, appendInn_HE h1 h2 hd, submatrix_mul_id_left,
      Matrix.fromRows_mul]
  have hcore : -(P * emb (appendInn i1 i2).ia_rsl * (appendInn i1 i2).INN_rslᵀ *
      matInv (appendInn i1 i2).Z) * (appendInn i1 i2).INN_rsl *
      ((emb (appendInn i1 i2).ia_rsl)ᵀ * P) =
      -(Matrix.fromColumns (P * (emb i1.ia_rsl * i1.INN_rslᵀ * matInv i1.Z))
          (P * (emb i2.ia_rsl * i2.INN_rslᵀ * matInv i2.Z)) *
        Matrix.fromRows (i1.INN_rsl * (emb i1.ia_rsl)ᵀ * P)
          (i2.INN_rsl * (emb i2.ia_rsl)ᵀ * P)) := by
    have ha : -(P * emb (appendInn i1 i2).ia_rsl * (appendInn i1 i2).INN_rslᵀ *
        matInv (appendInn i1 i2).Z) * (appendInn i1 i2).INN_rsl *
        ((emb (appendInn i1 i2).ia_rsl)ᵀ * P) =
        -((P * emb (appendInn i1 i2).ia_rsl * (appendInn i1 i2).INN_rslᵀ *
          matInv (appendInn i1 i2).Z) * ((appendInn i1 i2).INN_rsl *
          ((emb (appendInn i1 i2).ia_rsl)ᵀ * P))) := by
      simp only [Matrix.neg_mul, Matrix.mul_assoc]
    rw [ha, hPA, hHE, Matrix.submatrix_mul_equiv, Matrix.submatrix_id_id]
  rw [hcore, Matrix.fromColumns_mul_fromRows]
  simp only [Matrix.mul_neg, Matrix.neg_mul, Matrix.mul_add, Matrix.add_mul,
    Matrix.mul_assoc, neg_add]

/-- C5 (amended): for two innovations over disjoint contributing index sets,
both inside the used states, with nonsingular symmetric innovation
covariances, a symmetric covariance, and — the condition the original claim
omits — zero prior cross-covariance between the two contributing blocks, the
two sequential `correct` calls succeed in either order, the stacked
`stackCorrection`/`stackCorrection`/`correctAllStacked` call succeeds, and
all three produce exactly the same mean `x` and covariance `P`. -/
theorem stacked_eq_sequential_uncorrelated {n : ℕ} {iax : List (Fin n)}
    {i1 i2 : Innovation n} {s : Filt n}
    (hx : iax.Nodup)
    (h1 : i1.ia_rsl.Nodup) (h2 : i2.ia_rsl.Nodup)
    (hd : ∀ j ∈ i2.ia_rsl, j ∉ i1.ia_rsl)
    (hs1 : ∀ j ∈ i1.ia_rsl, j ∈ iax) (hs2 : ∀ j ∈ i2.ia_rsl, j ∈ iax)
    (hz1 : i1.Z.det ≠ 0) (hz2 : i2.Z.det ≠ 0)
    (hzs1 : i1.Z.IsSymm) (hzs2 : i2.Z.IsSymm)
    (hP : s.P.IsSymm)
    (hcross : s.P.submatrix i1.ia_rsl.get i2.ia_rsl.get = 0) :
    ∃ s1 s2 s1m s2m sb,
      correct iax i1 s = .ok s1 ∧ correct iax i2 s1 = .ok s2 ∧
      correct iax i2 s = .ok s1m ∧ correct iax i1 s1m = .ok s2m ∧
      correctAllStacked iax (stackCorrection i2 (stackCorrection i1 [])) s =
        .ok (sb, []) ∧
      sb.x = s2.x ∧ sb.P = s2.P ∧ s2m.x = s2.x ∧ s2m.P = s2.P := by
  have hcross2 : s.P.submatrix i2.ia_rsl.get i1.ia_rsl.get = 0 := by
    ext a b
    show s.P (i2.ia_rsl.get a) (i1.ia_rsl.get b) = (0 : ℚ)
    have h0 : s.P (i1.ia_rsl.get b) (i2.ia_rsl.get a) = 0 :=
      congrFun (congrFun hcross b) a
    rw [hP.apply (i1.ia_rsl.get b) (i2.ia_rsl.get a)]
    exact h0
  obtain ⟨s1, hok1⟩ : ∃ t, correct iax i1 s = .ok t :=
    ⟨_, by unfold correct; rw [if_neg hz1]⟩
  have hP1s : s1.P.IsSymm := by
    obtain ⟨hPeq, -⟩ := correct_ok_inv hok1
    rw [hPeq]
    exact symmetrize_isSymm _
  obtain ⟨hx1, hP1⟩ := correct_ok_rep hx hzs1 hP hok1
  obtain ⟨R1, R2⟩ := correct_cross_invariant hx hzs1 hP hs2 hcross hok1
  obtain ⟨s2, hok2⟩ : ∃ t, correct iax i2 s1 = .ok t :=
    ⟨_, by unfold correct; rw [if_neg hz2]⟩
  obtain ⟨hx2, hP2⟩ := correct_ok_rep hx hzs2 hP1s hok2
  rw [R1] at hx2 hP2
  rw [R2] at hP2
  rw [hx1] at hx2
  rw [hP1] at hP2
  obtain ⟨s1m, hok1m⟩ : ∃ t, correct iax i2 s = .ok t :=
    ⟨_, by unfold correct; rw [if_neg hz2]⟩
  have hP1sm : s1m.P.IsSymm := by
    obtain ⟨hPeq, -⟩ := correct_ok_inv hok1m
    rw [hPeq]
    exact symmetrize_isSymm _
  obtain ⟨hx1m, hP1m⟩ := correct_ok_rep hx hzs2 hP hok1m
  obtain ⟨R1m, R2m⟩ := correct_cross_invariant hx hzs2 hP hs1 hcross2 hok1m
  obtain ⟨s2m, hok2m⟩ : ∃ t, correct iax i1 s1m = .ok t :=
    ⟨_, by unfold correct; rw [if_neg hz1]⟩
  obtain ⟨hx2m, hP2m⟩ := correct_ok_rep hx hzs1 hP1sm hok2m
  rw [R1m] at hx2m hP2m
  rw [R2m] at hP2m
  rw [hx1m] at hx2m
  rw [hP1m] at hP2m
  have hdetc : (appendInn i1 i2).Z.det ≠ 0 := by
    rw [appendInn_Z_det]
    exact mul_ne_zero hz1 hz2
  obtain ⟨sb, hokb⟩ : ∃ t, correct iax (appendInn i1 i2) s = .ok t :=
    ⟨_, by unfold correct; rw [if_neg hdetc]⟩
  have hstack : correctAllStacked iax (stackCorrection i2 (stackCorrection i1 []))
      s = .ok (sb, []) := by
    show (correct iax (combineInn i1 i2) s).map (fun t => (t, [])) = .ok (sb, [])
    rw [combineInn_eq_appendInn hd, hokb]
    rfl
  obtain ⟨hxb, hPb⟩ :=
    correct_ok_rep hx (appendInn_Z_isSymm hzs1 hzs2) hP hokb
  refine ⟨s1, s2, s1m, s2m, sb, hok1, hok2, hok1m, hok2m, hstack, ?_, ?_, ?_, ?_⟩
  · rw [hxb, hx2, batch_x_red iax s.P h1 h2 hd hz1 hz2]
    exact (add_assoc _ _ _).symm
  · rw [hPb, hP2, batch_P_red iax s.P h1 h2 hd hz1 hz2]
    exact (add_assoc _ _ _).symm
  · rw [hx2m, hx2]
    exact add_right_comm _ _ _
  · rw [hP2m, hP2]
    exact add_right_comm _ _ _

/-- A concrete two-state instance with identity covariance — hence zero
cross-covariance — and two unit innovations over the disjoint index sets
`[0]` and `[1]`. -/
def c5wS : Filt 2 := ⟨fun _ => 0, 1⟩

/-- Unit innovation contributing only state 0. -/
def c5wI1 : Innovation 2 := ⟨1, fun _ => 1, 1, [0], !![1]⟩

/-- Unit innovation contributing only state 1. -/
def c5wI2 : Innovation 2 := ⟨1, fun _ => 1, 1, [1], !![1]⟩

/-- Witness: the amended C5 equivalence holds at the concrete uncorrelated
two-state instance. -/
theorem stacked_eq_sequential_uncorrelated_witness :
    ∃ s1 s2 s1m s2m sb,
      correct [0, 1] c5wI1 c5wS = .ok s1 ∧ correct [0, 1] c5wI2 s1 = .ok s2 ∧
      correct [0, 1] c5wI2 c5wS = .ok s1m ∧ correct [0, 1] c5wI1 s1m = .ok s2m ∧
      correctAllStacked [0, 1] (stackCorrection c5wI2 (stackCorrection c5wI1 []))
        c5wS = .ok (sb, []) ∧
      sb.x = s2.x ∧ sb.P = s2.P ∧ s2m.x = s2.x ∧ s2m.P = s2.P :=
  stacked_eq_sequential_uncorrelated (by decide) (by decide) (by decide)
    (by decide) (by decide) (by decide)
    (by show (1 : Matrix (Fin 1) (Fin 1) ℚ).det ≠ 0; simp)
    (by show (1 : Matrix (Fin 1) (Fin 1) ℚ).det ≠ 0; simp)
    (by show (1 : Matrix (Fin 1) (Fin 1) ℚ).IsSymm; exact Matrix.isSymm_one)
    (by show (1 : Matrix (Fin 1) (Fin 1) ℚ).IsSymm; exact Matrix.isSymm_one)
    (by show (1 : Matrix (Fin 2) (Fin 2) ℚ).IsSymm; exact Matrix.isSymm_one)
    (by ext a b
        fin_cases a
        fin_cases b
        show (1 : Matrix (Fin 2) (Fin 2) ℚ) 0 1 = 0
        exact Matrix.one_apply_ne (by decide))

end rtslam
